import Mathlib

/-!
Verification of the simulation core of the Last-Light survival-maze game.

The TypeScript source is shallowly embedded:
* number-valued game quantities become `ℚ` (all literals appearing in the
  relevant code paths are dyadic, so `ℚ` agrees with IEEE doubles there);
* tile/grid coordinates become `ℕ` (or `ℤ` where the code can produce
  negative tile indices via `Math.floor` of world coordinates);
* every comparison of Euclidean distances `Math.sqrt e ⋄ r` in the source is
  rendered by the equivalent comparison of squares `e ⋄ r ^ 2` (squaring is
  strictly monotone on nonnegative reals, and every radius compared against
  in the modelled paths is nonnegative), keeping all definitions executable;
* the internal RNG is abstracted as an explicit stream of draws, one
  parameter per `Math.random()` consumption site, and theorems quantify over
  all draw sequences;
* rendering state (sprites, Graphics, tint, containers) is dropped; numeric
  fields that the rendering mutates alongside the simulation (e.g.
  `flashTime`) are kept.
-/

namespace LastLight

/-! ## Embedded definitions -/

def TILE_SIZE : ℚ := 40

def TORCH_RADIUS : ℚ := 120

def LANTERN_RADIUS : ℚ := 200

def FLARE_RADIUS : ℚ := 350

def FOG_CREEP_SPEED : ℚ := 25000

def PISTOL_RANGE : ℚ := 250

def RIFLE_RANGE : ℚ := 300

def SHOTGUN_RANGE : ℚ := 180

def GATLING_RANGE : ℚ := 280

def STARTING_MAP_SIZE : ℕ := 25

def MAP_SIZE_INCREMENT : ℕ := 5

def MAX_MAP_SIZE : ℕ := 60

/-- Constants local to `CreatureManager` (src/unnamed/part_005). -/
def GOO_PUDDLE_DURATION : ℚ := 2

def GOO_PUDDLE_RADIUS : ℚ := 30

def GOO_ROOT_DURATION : ℚ := 1

def SPITTER_GOO_SPEED : ℚ := 300

/-- Embeds `MazeGenerator.tileToWorld`: center of a tile in world coordinates. -/
def tileToWorld (tileX tileY : ℕ) : ℚ × ℚ :=
  (tileX * TILE_SIZE + TILE_SIZE / 2, tileY * TILE_SIZE + TILE_SIZE / 2)

/-- Embeds `MazeGenerator.worldToTile`: `Math.floor(world / TILE_SIZE)`. -/
def worldToTile (worldX worldY : ℚ) : ℤ × ℤ :=
  (⌊worldX / TILE_SIZE⌋, ⌊worldY / TILE_SIZE⌋)

/-- Squared Euclidean distance between two world points; every distance
comparison in the embedded code is expressed through this. -/
def distSq (x1 y1 x2 y2 : ℚ) : ℚ :=
  (x1 - x2) ^ 2 + (y1 - y2) ^ 2

structure FogState where
  width : ℕ
  height : ℕ
  lastLitTime : ℕ → ℕ → ℚ
  permanentlyLit : ℕ → ℕ → Bool
  currentTime : ℚ
  torchRadiusMultiplier : ℚ

/-- Embeds `FogOfWar.getTileVisibility`.  The source compares
`Math.sqrt(distX²+distY²) <= TORCH_RADIUS`; we compare squares.  Note the
source uses the unscaled `TORCH_RADIUS` here, not
`TORCH_RADIUS * torchRadiusMultiplier`. -/
def getTileVisibility (fs : FogState) (tileX tileY : ℕ) (playerX playerY : ℚ) : ℚ :=
  let lastLit := fs.lastLitTime tileY tileX
  if lastLit = 0 then 0
  else if fs.permanentlyLit tileY tileX then 1
  else
    let c := tileToWorld tileX tileY
    if distSq c.1 c.2 playerX playerY ≤ TORCH_RADIUS ^ 2 then 1
    else
      let timeSinceLit := fs.currentTime - lastLit
      max 0 (min 1 (1 - timeSinceLit / FOG_CREEP_SPEED))

/-- Embeds `FogOfWar.isTileLit`: visibility is exactly 1. -/
def isTileLit (fs : FogState) (tileX tileY : ℕ) (playerX playerY : ℚ) : Bool :=
  getTileVisibility fs tileX tileY playerX playerY = 1

/-- Embeds `FogOfWar.isTileVisible`: visibility strictly above 0.5. -/
def isTileVisible (fs : FogState) (tileX tileY : ℕ) (playerX playerY : ℚ) : Bool :=
  getTileVisibility fs tileX tileY playerX playerY > 1 / 2

/-- Re-timestamping a fog state, as querying at a different `currentTime`. -/
def atTime (fs : FogState) (t : ℚ) : FogState :=
  { fs with currentTime := t }

/-- Embeds `Game.getMapSize`. -/
def getMapSize (level : ℕ) : ℕ :=
  min MAX_MAP_SIZE (STARTING_MAP_SIZE + (level - 1) * MAP_SIZE_INCREMENT)

/-- Par time computed in `Game.startLevel`:
`Math.floor(25 + sizeDiff * 0.85)` with `sizeDiff = mapSize - 25`. -/
def parTime (mapSize : ℕ) : ℤ :=
  ⌊(25 : ℚ) + ((mapSize : ℚ) - 25) * (85 / 100)⌋

/-- Concrete fog state for the C3 witness: tile (0,0) lit at t = 1000 ms,
player queried far away. -/
def fogC3 : FogState :=
  ⟨1, 1, fun _ _ => 1000, fun _ _ => false, 0, 1⟩

/-- Concrete fog state for the C6 counterexample: every tile last lit at
t = 1 ms, queried at t = 25001 ms, torch multiplier 2. -/
def fogC6 : FogState :=
  ⟨6, 1, fun _ _ => 1, fun _ _ => false, 25001, 2⟩

inductive CreatureType where
  | crawler
  | spitter
  | broodmother
deriving DecidableEq, Repr

structure Creature where
  id : ℕ
  type : CreatureType
  x : ℚ
  y : ℚ
  hp : ℚ
  maxHp : ℚ
  speed : ℚ
  alive : Bool
  flashTime : ℚ
  frozen : Bool
  frozenTime : ℚ
  size : ℚ
deriving DecidableEq, Repr

/-- The `CreatureManager` fields touched by `triggerHordeRush` and
`resetHordeRush`. -/
structure CMState where
  creatures : List Creature
  spawnRate : ℚ
  baseSpawnRate : ℚ
  speedMultiplier : ℚ
  baseSpeedMultiplier : ℚ
  maxCreaturesAlive : ℕ
  hordeRushActive : Bool
deriving DecidableEq, Repr

/-- Embeds `CreatureManager.triggerHordeRush`: guarded one-shot transition. -/
def triggerHordeRush (s : CMState) : CMState :=
  if s.hordeRushActive then s
  else
    { s with
      hordeRushActive := true
      spawnRate := s.baseSpawnRate * 6
      speedMultiplier := s.speedMultiplier * (3 / 2)
      maxCreaturesAlive := min 800 (s.maxCreaturesAlive * 2)
      creatures := s.creatures.map fun c =>
        if c.alive = true ∧ c.type = CreatureType.crawler then
          { c with speed := c.speed * (3 / 2) }
        else c }

/-- Embeds `CreatureManager.resetHordeRush`. -/
def resetHordeRush (s : CMState) : CMState :=
  { s with
    hordeRushActive := false
    spawnRate := s.baseSpawnRate
    speedMultiplier := s.baseSpeedMultiplier }

/-- Embeds `CreatureManager.damageCreature`, returning (killed?, new list). -/
def damageCreature : List Creature → ℕ → ℚ → Bool × List Creature
  | [], _, _ => (false, [])
  | c :: rest, cid, dmg =>
    if c.id = cid then
      if c.alive = false then (false, c :: rest)
      else
        if c.hp - dmg ≤ 0 then (true, rest)
        else (false, { c with hp := c.hp - dmg, flashTime := 5 / 100 } :: rest)
    else
      let r := damageCreature rest cid dmg
      (r.1, c :: r.2)

/-- Embeds `CreatureManager.getCreatures`: alive creatures only. -/
def getCreatures (cs : List Creature) : List Creature :=
  cs.filter (fun c => c.alive)

/-- Embeds `CreatureManager.getAliveCount`: the raw list length. -/
def getAliveCount (cs : List Creature) : ℕ :=
  cs.length

/-- The creature-list invariant: every stored creature is alive with
positive hp. -/
def CreatureInv (cs : List Creature) : Prop :=
  ∀ c ∈ cs, c.alive = true ∧ 0 < c.hp

/-- A concrete two-creature list for the C10 witness. -/
def csC10 : List Creature :=
  [⟨0, CreatureType.crawler, 100, 100, 10, 10, 70, true, 0, false, 0, 20⟩,
   ⟨1, CreatureType.spitter, 300, 300, 15, 15, 0, true, 0, false, 0, 20⟩]

structure GooProjectile where
  x : ℚ
  y : ℚ
  targetX : ℚ
  targetY : ℚ
  speed : ℚ
deriving DecidableEq, Repr

structure GooPuddle where
  x : ℚ
  y : ℚ
  radius : ℚ
  duration : ℚ
deriving DecidableEq, Repr

/-- Embeds `CreatureManager.createGooPuddle`. -/
def createGooPuddle (x y : ℚ) : GooPuddle :=
  ⟨x, y, GOO_PUDDLE_RADIUS, GOO_PUDDLE_DURATION⟩

/-- Embeds `CreatureManager.updateGooPuddles`, acting on (puddles, playerRootedTime). -/
def updateGooPuddles (dt px py : ℚ) : List GooPuddle → ℚ → List GooPuddle × ℚ
  | [], rooted => ([], rooted)
  | p :: rest, rooted =>
    let r := updateGooPuddles dt px py rest rooted
    let dur := p.duration - dt
    let rooted2 :=
      if distSq px py p.x p.y < p.radius ^ 2 ∧ r.2 ≤ 0 then
        GOO_ROOT_DURATION * (1 / 2)
      else r.2
    if dur ≤ 0 then (r.1, rooted2)
    else ({ p with duration := dur } :: r.1, rooted2)

/-- Embeds `CreatureManager.updateGooProjectiles`, acting on
(projectiles, playerRootedTime, puddles); `sq` abstracts `Math.sqrt` in the
movement normalisation. -/
def updateGooProjectiles (sq : ℚ → ℚ) (dt px py : ℚ) :
    List GooProjectile → ℚ → List GooPuddle →
      List GooProjectile × ℚ × List GooPuddle
  | [], rooted, puddles => ([], rooted, puddles)
  | g :: rest, rooted, puddles =>
    let r := updateGooProjectiles sq dt px py rest rooted puddles
    let dsq := distSq g.targetX g.targetY g.x g.y
    if dsq < 100 then
      (r.1, r.2.1, r.2.2 ++ [createGooPuddle g.x g.y])
    else
      let dist := sq dsq
      let nx := g.x + (g.targetX - g.x) / dist * g.speed * dt
      let ny := g.y + (g.targetY - g.y) / dist * g.speed * dt
      if distSq nx ny px py < 400 then
        (r.1, GOO_ROOT_DURATION, r.2.2)
      else
        ({ g with x := nx, y := ny } :: r.1, r.2.1, r.2.2)

/-- Concrete puddle for the C2 theorems: centered at the origin. -/
def puddleC2 : GooPuddle := ⟨0, 0, 30, 2⟩

inductive WeaponType where
  | pistol
  | rifle
  | shotgun
  | gatling
deriving DecidableEq, Repr

/-- The `WEAPON_PRIORITY` table (higher = processed first). -/
def WEAPON_PRIORITY : WeaponType → ℕ
  | .gatling => 4
  | .rifle => 3
  | .shotgun => 2
  | .pistol => 1

/-- The `WEAPON_STATS[w].range` value. -/
def weaponRange : WeaponType → ℚ
  | .pistol => PISTOL_RANGE
  | .rifle => RIFLE_RANGE
  | .shotgun => SHOTGUN_RANGE
  | .gatling => GATLING_RANGE

/-- A visible creature as seen by the targeting loop: its id and its cached
distance to the player. -/
structure VisCreature where
  id : ℕ
  dist : ℚ
deriving DecidableEq, Repr

/-- Embeds `CombatSystem.findNearestAvailableTarget`: first creature in the
distance-sorted list within this weapon's range and not yet claimed. -/
def findNearestAvailableTarget (weapon : WeaponType) (sorted : List VisCreature)
    (excludeIds : List ℕ) : Option VisCreature :=
  sorted.find? fun c =>
    decide (c.dist < weaponRange weapon) && !(excludeIds.contains c.id)

/-- The weapon-processing loop of `CombatSystem.update`: weapons in priority
order, a claim set `targeted`, a fired counter capped at `maxFire`; returns
the (weapon, claimed enemy id) pairs that fire this tick. -/
def fireLoop : List WeaponType → List VisCreature → (WeaponType → ℚ) → ℕ →
    List ℕ → ℕ → List (WeaponType × ℕ)
  | [], _, _, _, _, _ => []
  | w :: ws, creatures, cds, maxFire, targeted, fired =>
    if maxFire ≤ fired then []
    else if 0 < cds w then fireLoop ws creatures cds maxFire targeted fired
    else
      match findNearestAvailableTarget w creatures targeted with
      | some t =>
          (w, t.id) :: fireLoop ws creatures cds maxFire (t.id :: targeted) (fired + 1)
      | none => fireLoop ws creatures cds maxFire targeted fired

/-- Insertion step for the priority sort
(`Array.from(ownedWeapons).sort((a,b) => PRIORITY[b] - PRIORITY[a])`). -/
def insertByPriority (w : WeaponType) : List WeaponType → List WeaponType
  | [] => [w]
  | x :: xs =>
    if WEAPON_PRIORITY x < WEAPON_PRIORITY w then w :: x :: xs
    else x :: insertByPriority w xs

/-- Owned weapons sorted by priority, highest first. -/
def sortWeapons (ws : List WeaponType) : List WeaponType :=
  ws.foldr insertByPriority []

/-- The firing portion of `CombatSystem.update`: decrement cooldowns by
`dt`, early-return when no targets, cap firing weapons at
`min numTargets numWeapons`, then run the claim loop with an empty claim
set. -/
def combatUpdateFires (dt : ℚ) (owned : List WeaponType)
    (visible : List VisCreature) (cds : WeaponType → ℚ) :
    List (WeaponType × ℕ) :=
  if visible.length = 0 then []
  else
    fireLoop (sortWeapons owned) visible (fun w => cds w - dt)
      (min visible.length (sortWeapons owned).length) [] 0

structure SpawnEnv where
  width : ℕ
  height : ℕ
  tiles : ℕ → ℕ → ℕ
  horde : Bool
  torchRadius : ℚ
  lit : ℕ → ℕ → Bool
  playerX : ℚ
  playerY : ℚ

/-- The `minSpawnDistance` value in `spawnSingleCrawler`. -/
def minSpawnDistance (e : SpawnEnv) : ℚ :=
  e.torchRadius + (if e.horde then 40 else 20)

/-- The `maxSpawnDistance` value in `spawnSingleCrawler` (finite only in horde mode;
the source compares against it only when `hordeRushActive`). -/
def maxSpawnDistance (e : SpawnEnv) : ℚ :=
  e.torchRadius + 250

/-- The acceptance test applied to one candidate tile inside the attempt
loop of `spawnSingleCrawler` (bounds, floor, unlit, distance band); distance
comparisons are squared. -/
def validSpawnTile (e : SpawnEnv) (cand : ℤ × ℤ) : Bool :=
  decide (0 ≤ cand.1) && decide (cand.1 < (e.width : ℤ)) &&
  decide (0 ≤ cand.2) && decide (cand.2 < (e.height : ℤ)) &&
  decide (e.tiles cand.2.toNat cand.1.toNat = 0) &&
  !(e.lit cand.1.toNat cand.2.toNat) &&
  decide (minSpawnDistance e ^ 2 ≤
    distSq (tileToWorld cand.1.toNat cand.2.toNat).1
      (tileToWorld cand.1.toNat cand.2.toNat).2 e.playerX e.playerY) &&
  !(e.horde && decide (maxSpawnDistance e ^ 2 <
    distSq (tileToWorld cand.1.toNat cand.2.toNat).1
      (tileToWorld cand.1.toNat cand.2.toNat).2 e.playerX e.playerY))

/-- The attempt loop: try `fuel` candidates starting at draw index `i`,
returning the first accepted candidate. -/
def spawnLoop (e : SpawnEnv) (draws : ℕ → ℤ × ℤ) (i : ℕ) : ℕ → Option (ℤ × ℤ)
  | 0 => none
  | fuel + 1 =>
    if validSpawnTile e (draws i) then some (draws i)
    else spawnLoop e draws (i + 1) fuel

/-- Embeds `CreatureManager.createCrawler` (simulation fields; the kind-specific
`lastDirX/lastDirY` pair and the sprite are dropped). -/
def createCrawler (baseHp baseSpeed size hpMult speedMult : ℚ) (nid : ℕ)
    (x y : ℚ) : Creature :=
  ⟨nid, CreatureType.crawler, x, y, (⌊baseHp * hpMult⌋ : ℤ), (⌊baseHp * hpMult⌋ : ℤ),
    baseSpeed * speedMult, true, 0, false, 0, size⟩

/-- Embeds `CreatureManager.spawnSingleCrawler`: 50 attempts; on success append the
new crawler at the accepted tile's world center and return `true`, else
return `false` with the creature list untouched. -/
def spawnSingleCrawler (e : SpawnEnv) (draws : ℕ → ℤ × ℤ)
    (creatures : List Creature) (nid : ℕ)
    (baseHp baseSpeed size hpMult speedMult : ℚ) :
    Bool × List Creature × ℕ :=
  match spawnLoop e draws 0 50 with
  | some cand =>
    let w := tileToWorld cand.1.toNat cand.2.toNat
    (true, creatures ++ [createCrawler baseHp baseSpeed size hpMult speedMult nid w.1 w.2],
      nid + 1)
  | none => (false, creatures, nid)

/-- Concrete spawn environment for the C9 witness: a 3×3 all-floor maze
with every tile reported lit — every attempt is rejected, no crawler is
created. -/
def spawnEnvC9 : SpawnEnv :=
  ⟨3, 3, fun _ _ => 0, false, 120, fun _ _ => true, 60, 60⟩

structure Room where
  x : ℕ
  y : ℕ
  width : ℕ
  height : ℕ
  centerX : ℕ
  centerY : ℕ
deriving DecidableEq, Repr, Inhabited

/-- One room-placement attempt: the drawn width, height and position. -/
structure Cand where
  w : ℕ
  h : ℕ
  x : ℕ
  y : ℕ
deriving DecidableEq, Repr

/-- The room record built in `generate`:
`centerX = Math.floor(x + roomWidth / 2)` (integer `x` makes this
`x + w / 2` in ℕ division). -/
def mkRoom (c : Cand) : Room :=
  ⟨c.x, c.y, c.w, c.h, c.x + c.w / 2, c.y + c.h / 2⟩

def Grid : Type := ℕ → ℕ → ℕ

/-- The all-wall grid `generate` starts from. -/
def initialGrid : Grid := fun _ _ => 1

/-- One `this.tiles[y][x] = 0` assignment. -/
def setFloor (g : Grid) (x y : ℕ) : Grid :=
  fun b a => if b = y ∧ a = x then 0 else g b a

/-- A carving loop: set every listed `(x, y)` cell to floor. -/
def carveList (g : Grid) (ps : List (ℕ × ℕ)) : Grid :=
  ps.foldl (fun acc p => setFloor acc p.1 p.2) g

/-- Cells written by `carveRoom`. -/
def roomPositions (r : Room) : List (ℕ × ℕ) :=
  (List.range r.height).flatMap fun dy =>
    (List.range r.width).map fun dx => (r.x + dx, r.y + dy)

/-- Cells written by `carveHorizontalCorridor(x1, x2, y)` (3 rows wide,
rows clamped to the grid height). -/
def hCorridorPositions (x1 x2 y bound : ℕ) : List (ℕ × ℕ) :=
  (List.range (max x1 x2 - min x1 x2 + 1)).flatMap fun i =>
    (List.range 3).filterMap fun dy =>
      if y + dy < bound then some (min x1 x2 + i, y + dy) else none

/-- Cells written by `carveVerticalCorridor(y1, y2, x)` (3 columns wide,
columns clamped to the grid width). -/
def vCorridorPositions (y1 y2 x bound : ℕ) : List (ℕ × ℕ) :=
  (List.range (max y1 y2 - min y1 y2 + 1)).flatMap fun i =>
    (List.range 3).filterMap fun dx =>
      if x + dx < bound then some (x + dx, min y1 y2 + i) else none

/-- Embeds `MazeGenerator.carveRoom`. -/
def carveRoom (g : Grid) (r : Room) : Grid :=
  carveList g (roomPositions r)

/-- Embeds `MazeGenerator.carveHorizontalCorridor`. -/
def carveHCorridor (g : Grid) (gridH x1 x2 y : ℕ) : Grid :=
  carveList g (hCorridorPositions x1 x2 y gridH)

/-- Embeds `MazeGenerator.carveVerticalCorridor`. -/
def carveVCorridor (g : Grid) (gridW y1 y2 x : ℕ) : Grid :=
  carveList g (vCorridorPositions y1 y2 x gridW)

/-- One L-shaped corridor between the centers of rooms `a` and `b`; `dir`
is the `Math.random() < 0.5` horizontal-first choice. -/
def corridorL (g : Grid) (gridW gridH : ℕ) (a b : Room) (dir : Bool) : Grid :=
  if dir then
    carveVCorridor (carveHCorridor g gridH a.centerX b.centerX a.centerY)
      gridW a.centerY b.centerY b.centerX
  else
    carveHCorridor (carveVCorridor g gridW a.centerY b.centerY a.centerX)
      gridH a.centerX b.centerX b.centerY

/-- Embeds `MazeGenerator.roomsOverlap` (with the 2-tile padding). -/
def roomsOverlap (a b : Room) (padding : ℕ) : Bool :=
  !(decide (a.x + a.width + padding < b.x) ||
    decide (b.x + b.width + padding < a.x) ||
    decide (a.y + a.height + padding < b.y) ||
    decide (b.y + b.height + padding < a.y))

structure GenState where
  tiles : Grid
  rooms : List Room

/-- One iteration of the room-placement loop: reject overlapping
candidates, carve and append accepted ones. -/
def placeStep (st : GenState) (c : Cand) : GenState :=
  let r := mkRoom c
  if st.rooms.any (fun q => roomsOverlap r q 2) then st
  else { tiles := carveRoom st.tiles r, rooms := st.rooms ++ [r] }

/-- The room-placement phase of `generate` over the attempted rectangles. -/
def placeRooms (cands : List Cand) : GenState :=
  cands.foldl placeStep ⟨initialGrid, []⟩

/-- Embeds `MazeGenerator.connectRooms`: carve an L-corridor between each pair of
consecutive rooms, consuming one direction draw per pair. -/
def connectGo (gridW gridH : ℕ) (dirs : ℕ → Bool) :
    Grid → List Room → ℕ → Grid
  | g, a :: b :: rest, i =>
    connectGo gridW gridH dirs (corridorL g gridW gridH a b (dirs i)) (b :: rest) (i + 1)
  | g, _, _ => g

def connectRooms (gridW gridH : ℕ) (dirs : ℕ → Bool) (st : GenState) : GenState :=
  { st with tiles := connectGo gridW gridH dirs st.tiles st.rooms 0 }

/-- One iteration of `addExtraCorridors`: pick two rooms by index; carve an
L-corridor unless the picks are the same room (`roomA !== roomB`). -/
def extraStep (gridW gridH : ℕ) (rooms : List Room) (picks : ℕ → ℕ × ℕ)
    (dirs : ℕ → Bool) (g : Grid) (i : ℕ) : Grid :=
  match rooms.get? (picks i).1, rooms.get? (picks i).2 with
  | some a, some b =>
    if (picks i).1 ≠ (picks i).2 then corridorL g gridW gridH a b (dirs i) else g
  | _, _ => g

def extraGo (gridW gridH : ℕ) (rooms : List Room) (picks : ℕ → ℕ × ℕ)
    (dirs : ℕ → Bool) : Grid → ℕ → ℕ → Grid
  | g, _, 0 => g
  | g, i, fuel + 1 =>
    extraGo gridW gridH rooms picks dirs
      (extraStep gridW gridH rooms picks dirs g i) (i + 1) fuel

/-- Embeds `MazeGenerator.addExtraCorridors`: `floor(roomCount / 2)` extra
connections. -/
def addExtraCorridors (gridW gridH : ℕ) (picks : ℕ → ℕ × ℕ)
    (dirs : ℕ → Bool) (st : GenState) : GenState :=
  { st with
    tiles := extraGo gridW gridH st.rooms picks dirs st.tiles 0 (st.rooms.length / 2) }

def roomDistSq (a b : Room) : ℤ :=
  ((a.centerX : ℤ) - b.centerX) ^ 2 + ((a.centerY : ℤ) - b.centerY) ^ 2

/-- Squared distance of a room center to the top-left corner (0,0). -/
def distTLSq (r : Room) : ℤ :=
  (r.centerX : ℤ) ^ 2 + (r.centerY : ℤ) ^ 2

/-- Squared distance of a room center to the bottom-right corner (W,H). -/
def distBRSq (gridW gridH : ℕ) (r : Room) : ℤ :=
  ((gridW : ℤ) - r.centerX) ^ 2 + ((gridH : ℤ) - r.centerY) ^ 2

/-- The nested `i < j` pair loop of `findStartAndExit`, in iteration
order. -/
def allPairs (n : ℕ) : List (ℕ × ℕ) :=
  (List.range n).flatMap fun i =>
    (List.range n).filterMap fun j => if i < j then some (i, j) else none

/-- The farthest-pair fold: strict improvement over the running maximum. -/
def fpGo (rooms : List Room) : ℤ × Room × Room → List (ℕ × ℕ) → ℤ × Room × Room
  | acc, [] => acc
  | acc, ij :: rest =>
    match rooms.get? ij.1, rooms.get? ij.2 with
    | some a, some b =>
      fpGo rooms (if acc.1 < roomDistSq a b then (roomDistSq a b, a, b) else acc) rest
    | _, _ => fpGo rooms acc rest

/-- The farthest room pair (squared distance, start, exit), seeded with
`maxDist = 0`, `startRoom = rooms[0]`, `exitRoom = rooms[last]`. -/
def farthestPair (rooms : List Room) (r0 rl : Room) : ℤ × Room × Room :=
  fpGo rooms (0, r0, rl) (allPairs rooms.length)

/-- The fallback start-room loop (`dist < minStartDist`, starting from
Infinity, keeps the earliest strict minimiser of the distance to the
top-left corner). -/
def tlGo : ℤ × Room → List Room → ℤ × Room
  | acc, [] => acc
  | acc, r :: rest =>
    tlGo (if distTLSq r < acc.1 then (distTLSq r, r) else acc) rest

def tlBest : List Room → Option (ℤ × Room)
  | [] => none
  | r :: rest => some (tlGo (distTLSq r, r) rest)

/-- The fallback exit-room loop: skip the chosen start room, keep the
earliest strict minimiser of the distance to the bottom-right corner.
(The source skips by object identity; accepted rooms are pairwise
non-overlapping, hence pairwise distinct as values, so value equality
coincides with identity here.) -/
def brGo (gridW gridH : ℕ) (s : Room) :
    Option (ℤ × Room) → List Room → Option (ℤ × Room)
  | acc, [] => acc
  | acc, r :: rest =>
    if r = s then brGo gridW gridH s acc rest
    else
      match acc with
      | none => brGo gridW gridH s (some (distBRSq gridW gridH r, r)) rest
      | some a =>
        brGo gridW gridH s
          (if distBRSq gridW gridH r < a.1 then some (distBRSq gridW gridH r, r) else acc)
          rest

/-- The start room chosen by the fallback loop (`dflt` is the value the
`startRoom` variable held before the loop; the loop always updates on a
nonempty room list). -/
def fallbackStart (rooms : List Room) (dflt : Room) : Room :=
  match tlBest rooms with
  | some a => a.2
  | none => dflt

/-- The exit room chosen by the fallback loop (`dflt` is the value the
`exitRoom` variable held before the loop). -/
def fallbackExit (gridW gridH : ℕ) (s : Room) (rooms : List Room)
    (dflt : Room) : Room :=
  match brGo gridW gridH s none rooms with
  | some a => a.2
  | none => dflt

/-- Embeds `MazeGenerator.findStartAndExit`, returning also whether the
corner-bias fallback branch ran.  On an empty room list the source would
dereference `undefined`; that case is modelled as `none`. -/
def findStartAndExit (gridW gridH : ℕ) (rooms : List Room) :
    Option (Room × Room × Bool) :=
  match rooms with
  | [] => none
  | r0 :: rest =>
    let best := farthestPair (r0 :: rest) r0 ((r0 :: rest).getLastD r0)
    if 25 * best.1 < 4 * ((gridW : ℤ) ^ 2 + (gridH : ℤ) ^ 2) ∧
        2 ≤ (r0 :: rest).length then
      some (fallbackStart (r0 :: rest) best.2.1,
        fallbackExit gridW gridH (fallbackStart (r0 :: rest) best.2.1)
          (r0 :: rest) best.2.2,
        true)
    else
      some (best.2.1, best.2.2, false)

structure MazeData where
  tiles : Grid
  rooms : List Room
  startRoom : Room
  exitRoom : Room
  width : ℕ
  height : ℕ

/-- Embeds `MazeGenerator.generate` over explicit draw streams. -/
def generate (gridW gridH : ℕ) (cands : List Cand) (dirs : ℕ → Bool)
    (picks : ℕ → ℕ × ℕ) (extraDirs : ℕ → Bool) : Option MazeData :=
  let st := placeRooms cands
  let st2 := connectRooms gridW gridH dirs st
  let st3 := addExtraCorridors gridW gridH picks extraDirs st2
  match findStartAndExit gridW gridH st3.rooms with
  | some (s, e, _) => some ⟨st3.tiles, st3.rooms, s, e, gridW, gridH⟩
  | none => none

/-- What a successful placement draw satisfies: `x = randomInt(2, W-w-2)`
and `y = randomInt(2, H-h-2)` with nonempty room dimensions
(`minRoomSize ≥ 3`). -/
def CandOK (gridW gridH : ℕ) (c : Cand) : Prop :=
  1 ≤ c.w ∧ 1 ≤ c.h ∧ 2 ≤ c.x ∧ c.x + c.w + 2 ≤ gridW ∧
    2 ≤ c.y ∧ c.y + c.h + 2 ≤ gridH

instance (gridW gridH : ℕ) (c : Cand) : Decidable (CandOK gridW gridH c) := by
  unfold CandOK
  infer_instance

/-- Well-formedness of a placed room (its construction invariant plus
in-bounds margins). -/
def RoomWF (gridW gridH : ℕ) (r : Room) : Prop :=
  r.centerX = r.x + r.width / 2 ∧ r.centerY = r.y + r.height / 2 ∧
  1 ≤ r.width ∧ 1 ≤ r.height ∧
  2 ≤ r.x ∧ r.x + r.width + 2 ≤ gridW ∧ 2 ≤ r.y ∧ r.y + r.height + 2 ≤ gridH

/-- Holds when `(x, y)` is a FLOOR cell of the grid. -/
def isFloor (g : Grid) (p : ℕ × ℕ) : Prop :=
  g p.2 p.1 = 0

/-- Adjacency of two tiles in the 4-connected sense. -/
def TileAdj (p q : ℕ × ℕ) : Prop :=
  (p.1 = q.1 ∧ (p.2 + 1 = q.2 ∨ q.2 + 1 = p.2)) ∨
  (p.2 = q.2 ∧ (p.1 + 1 = q.1 ∨ q.1 + 1 = p.1))

/-- One step of a floor-only path. -/
def FloorStep (g : Grid) (p q : ℕ × ℕ) : Prop :=
  TileAdj p q ∧ isFloor g p ∧ isFloor g q

/-- Reachability by a path of 4-connected FLOOR tiles. -/
def Reach (g : Grid) : ℕ × ℕ → ℕ × ℕ → Prop :=
  Relation.ReflTransGen (FloorStep g)

/-- A room's tile rectangle. -/
def roomRect (r : Room) (p : ℕ × ℕ) : Prop :=
  r.x ≤ p.1 ∧ p.1 < r.x + r.width ∧ r.y ≤ p.2 ∧ p.2 < r.y + r.height

/-- Invariant of the placement phase: rooms are well-formed, carved to
floor, every floor tile lies in some room, and each room was
overlap-checked against every earlier room. -/
def PlaceInv (gridW gridH : ℕ) (st : GenState) : Prop :=
  (∀ r ∈ st.rooms, RoomWF gridW gridH r) ∧
  (∀ r ∈ st.rooms, ∀ p, roomRect r p → isFloor st.tiles p) ∧
  (∀ p, isFloor st.tiles p → ∃ r ∈ st.rooms, roomRect r p) ∧
  st.rooms.Pairwise (fun u v => roomsOverlap v u 2 = false)

/-- After the connect phase: every room rectangle is floor, every room
center reaches `c0`, and every floor tile reaches `c0`. -/
def ConnectedInv (gridW gridH : ℕ) (rooms : List Room) (c0 : ℕ × ℕ) (g : Grid) : Prop :=
  (∀ r ∈ rooms, ∀ p, roomRect r p → isFloor g p) ∧
  (∀ r ∈ rooms, Reach g (r.centerX, r.centerY) c0) ∧
  (∀ p, isFloor g p → Reach g p c0)

/-- Concrete draws for the C1 witness: one accepted 5×5 room in a 25×25
grid. -/
def candsC1 : List Cand := [⟨5, 5, 2, 2⟩]

def genC1 : Option MazeData :=
  generate 25 25 candsC1 (fun _ => true) (fun _ => (0, 0)) (fun _ => true)

instance : Inhabited Grid := ⟨fun _ _ => 1⟩

instance : Inhabited MazeData :=
  ⟨⟨default, [], default, default, 0, 0⟩⟩

def mazeC1 : MazeData := genC1.getD default

/-- Concrete draws yielding a single placed room (every later identical
candidate overlaps the first). -/
def candsC5 : List Cand := [⟨5, 5, 2, 2⟩]

def genC5 : Option MazeData :=
  generate 25 25 candsC5 (fun _ => true) (fun _ => (0, 0)) (fun _ => true)

def mazeC5 : MazeData := genC5.getD default

/-- Concrete draws yielding two far-apart rooms for the C5 witness. -/
def candsC5w : List Cand := [⟨5, 5, 2, 2⟩, ⟨5, 5, 15, 15⟩]

def genC5w : Option MazeData :=
  generate 25 25 candsC5w (fun _ => true) (fun _ => (0, 0)) (fun _ => true)

def mazeC5w : MazeData := genC5w.getD default

/-! ## Theorems -/

/-- On a previously-seen, non-permanent tile beyond the (base) torch radius,
`getTileVisibility` reduces to the clamped linear fade. -/
theorem getTileVisibility_fade (fs : FogState) (tx ty : ℕ) (px py : ℚ)
    (hT : fs.lastLitTime ty tx ≠ 0)
    (hperm : fs.permanentlyLit ty tx = false)
    (hfar : TORCH_RADIUS ^ 2 <
      distSq (tileToWorld tx ty).1 (tileToWorld tx ty).2 px py) :
    getTileVisibility fs tx ty px py =
      max 0 (min 1 (1 - (fs.currentTime - fs.lastLitTime ty tx) / FOG_CREEP_SPEED)) := by
  simp [getTileVisibility, hT, hperm, not_le.mpr hfar]

/-- C3: for a tile last lit at time `T > 0`, not permanently lit, beyond the
torch radius of the queried position and not re-lit afterwards, the
visibility is 1 at time `T`, strictly between 0 and 1 at `T + FOG_CREEP_SPEED/2`,
0 from `T + FOG_CREEP_SPEED` on, always lies in `[0,1]`, and is non-increasing
in the elapsed time. -/
theorem fog_creep_monotone (fs : FogState) (tx ty : ℕ) (px py : ℚ)
    (hT : 0 < fs.lastLitTime ty tx)
    (hperm : fs.permanentlyLit ty tx = false)
    (hfar : TORCH_RADIUS ^ 2 <
      distSq (tileToWorld tx ty).1 (tileToWorld tx ty).2 px py) :
    getTileVisibility (atTime fs (fs.lastLitTime ty tx)) tx ty px py = 1 ∧
    (0 < getTileVisibility (atTime fs (fs.lastLitTime ty tx + FOG_CREEP_SPEED / 2)) tx ty px py ∧
      getTileVisibility (atTime fs (fs.lastLitTime ty tx + FOG_CREEP_SPEED / 2)) tx ty px py < 1) ∧
    (∀ t, fs.lastLitTime ty tx + FOG_CREEP_SPEED ≤ t →
      getTileVisibility (atTime fs t) tx ty px py = 0) ∧
    (∀ t, 0 ≤ getTileVisibility (atTime fs t) tx ty px py ∧
      getTileVisibility (atTime fs t) tx ty px py ≤ 1) ∧
    (∀ t₁ t₂, t₁ ≤ t₂ →
      getTileVisibility (atTime fs t₂) tx ty px py ≤
        getTileVisibility (atTime fs t₁) tx ty px py) := by
  have hT' : fs.lastLitTime ty tx ≠ 0 := ne_of_gt hT
  have hfade : ∀ t : ℚ, getTileVisibility (atTime fs t) tx ty px py =
      max 0 (min 1 (1 - (t - fs.lastLitTime ty tx) / FOG_CREEP_SPEED)) := by
    intro t
    exact getTileVisibility_fade (atTime fs t) tx ty px py hT' hperm hfar
  refine ⟨?_, ⟨?_, ?_⟩, ?_, ?_, ?_⟩
  · rw [hfade]; norm_num
  · rw [hfade]; norm_num [FOG_CREEP_SPEED]
  · rw [hfade]; norm_num [FOG_CREEP_SPEED]
  · intro t ht
    rw [hfade]
    have h1 : 1 - (t - fs.lastLitTime ty tx) / FOG_CREEP_SPEED ≤ 0 := by
      rw [sub_nonpos, le_div_iff (by norm_num [FOG_CREEP_SPEED])]
      linarith [ht]
    rw [max_eq_left]
    exact le_trans (min_le_right _ _) h1
  · intro t
    rw [hfade]
    constructor
    · exact le_max_left _ _
    · exact max_le (by norm_num) (min_le_left _ _)
  · intro t₁ t₂ h12
    rw [hfade, hfade]
    have hstep : 1 - (t₂ - fs.lastLitTime ty tx) / FOG_CREEP_SPEED ≤
        1 - (t₁ - fs.lastLitTime ty tx) / FOG_CREEP_SPEED := by
      have hdiv : (t₁ - fs.lastLitTime ty tx) / FOG_CREEP_SPEED ≤
          (t₂ - fs.lastLitTime ty tx) / FOG_CREEP_SPEED :=
        (div_le_div_right (by norm_num [FOG_CREEP_SPEED])).mpr (by linarith)
      linarith
    exact max_le_max le_rfl (min_le_min le_rfl hstep)

/-- C3 witness: the hypotheses of `fog_creep_monotone` hold at a concrete
state and the conclusions follow there. -/
theorem fog_creep_monotone_witness :
    (0 < fogC3.lastLitTime 0 0 ∧ fogC3.permanentlyLit 0 0 = false ∧
      TORCH_RADIUS ^ 2 < distSq (tileToWorld 0 0).1 (tileToWorld 0 0).2 1000 1000) ∧
    getTileVisibility (atTime fogC3 (fogC3.lastLitTime 0 0)) 0 0 1000 1000 = 1 := by
  have h1 : (0:ℚ) < fogC3.lastLitTime 0 0 := by norm_num [fogC3]
  have h2 : fogC3.permanentlyLit 0 0 = false := rfl
  have h3 : TORCH_RADIUS ^ 2 <
      distSq (tileToWorld 0 0).1 (tileToWorld 0 0).2 1000 1000 := by
    norm_num [TORCH_RADIUS, distSq, tileToWorld, TILE_SIZE]
  exact ⟨⟨h1, h2, h3⟩, (fog_creep_monotone fogC3 0 0 1000 1000 h1 h2 h3).1⟩

/-- C6 counterexample: tile (5,0) has been seen, its center lies within the
effective torch radius `TORCH_RADIUS * 2` of the queried player position,
the multiplier is ≥ 1, yet `getTileVisibility` returns 0, not 1 — the query
compares against the unscaled `TORCH_RADIUS` only. -/
theorem torch_multiplier_ignored_counterexample :
    1 ≤ fogC6.torchRadiusMultiplier ∧
    fogC6.lastLitTime 0 5 ≠ 0 ∧
    distSq (tileToWorld 5 0).1 (tileToWorld 5 0).2 20 20 ≤
      (TORCH_RADIUS * fogC6.torchRadiusMultiplier) ^ 2 ∧
    getTileVisibility fogC6 5 0 20 20 = 0 ∧
    isTileLit fogC6 5 0 20 20 = false := by
  refine ⟨by norm_num [fogC6], by norm_num [fogC6], ?_, ?_, ?_⟩
  · norm_num [fogC6, distSq, tileToWorld, TILE_SIZE, TORCH_RADIUS]
  · norm_num [getTileVisibility, fogC6, distSq, tileToWorld, TILE_SIZE,
      TORCH_RADIUS, FOG_CREEP_SPEED]
  · norm_num [isTileLit, getTileVisibility, fogC6, distSq, tileToWorld, TILE_SIZE,
      TORCH_RADIUS, FOG_CREEP_SPEED]

/-- C6 amended: for every previously seen tile, `getTileVisibility` returns 1
whenever the tile center is within the *base* `TORCH_RADIUS` of the queried
position (the torch-radius multiplier is not consulted by the query; it only
affects which tiles `update` re-stamps). -/
theorem torch_query_uses_base_radius (fs : FogState) (tx ty : ℕ) (px py : ℚ)
    (hseen : fs.lastLitTime ty tx ≠ 0)
    (hnear : distSq (tileToWorld tx ty).1 (tileToWorld tx ty).2 px py ≤
      TORCH_RADIUS ^ 2) :
    getTileVisibility fs tx ty px py = 1 ∧ isTileLit fs tx ty px py = true := by
  have h : getTileVisibility fs tx ty px py = 1 := by
    by_cases hp : fs.permanentlyLit ty tx <;>
      simp [getTileVisibility, hseen, hp, hnear]
  exact ⟨h, by simp [isTileLit, h]⟩

/-- C6 amended witness at a concrete state: player standing on the tile. -/
theorem torch_query_uses_base_radius_witness :
    (fogC3.lastLitTime 0 0 ≠ 0 ∧
      distSq (tileToWorld 0 0).1 (tileToWorld 0 0).2 20 20 ≤ TORCH_RADIUS ^ 2) ∧
    isTileLit fogC3 0 0 20 20 = true := by
  have h1 : fogC3.lastLitTime 0 0 ≠ 0 := by norm_num [fogC3]
  have h2 : distSq (tileToWorld 0 0).1 (tileToWorld 0 0).2 20 20 ≤
      TORCH_RADIUS ^ 2 := by
    norm_num [distSq, tileToWorld, TILE_SIZE, TORCH_RADIUS]
  exact ⟨⟨h1, h2⟩, (torch_query_uses_base_radius fogC3 0 0 20 20 h1 h2).2⟩

/-- C7: par time at map size 25 is 25 s and at map size 60 is
`⌊25 + 35 · 0.85⌋ = 54` s; map sizes 25 and 60 are produced by levels 1
and 8 respectively. -/
theorem par_time_scenarios :
    getMapSize 1 = 25 ∧ parTime 25 = 25 ∧ getMapSize 8 = 60 ∧
    parTime 60 = 54 ∧ parTime 60 = ⌊(25 : ℚ) + 35 * (85 / 100)⌋ := by
  refine ⟨?_, ?_, ?_, ?_, ?_⟩ <;>
    norm_num [getMapSize, parTime, STARTING_MAP_SIZE, MAP_SIZE_INCREMENT,
      MAX_MAP_SIZE]

/-- C8: `triggerHordeRush` is idempotent — a second call before any reset
leaves the whole state (spawn rate, speed multiplier, population cap, and
every creature's speed) exactly as after the first call; the 1.5× speed
multiplier is never compounded. -/
theorem trigger_horde_rush_idempotent (s : CMState) :
    triggerHordeRush (triggerHordeRush s) = triggerHordeRush s := by
  by_cases h : s.hordeRushActive
  · simp [triggerHordeRush, h]
  · simp [triggerHordeRush, h]

theorem damageCreature_inv (cs : List Creature) (cid : ℕ) (dmg : ℚ)
    (h : CreatureInv cs) : CreatureInv (damageCreature cs cid dmg).2 := by
  induction cs with
  | nil => simpa [damageCreature] using h
  | cons c rest ih =>
    have hc := h c (List.mem_cons_self c rest)
    have hrest : CreatureInv rest := fun d hd => h d (List.mem_cons_of_mem c hd)
    by_cases hid : c.id = cid
    · by_cases hdead : c.hp - dmg ≤ 0
      · simpa [damageCreature, hid, hc.1, hdead] using hrest
      · have hres : (damageCreature (c :: rest) cid dmg).2 =
            { c with hp := c.hp - dmg, flashTime := 5 / 100 } :: rest := by
          simp [damageCreature, hid, hc.1, hdead]
        intro d hd
        rw [hres] at hd
        rcases List.mem_cons.mp hd with hdc | hdr
        · subst hdc
          exact ⟨hc.1, by linarith [not_le.mp hdead]⟩
        · exact hrest d hdr
    · intro d hd
      simp only [damageCreature, hid, ite_false] at hd
      rcases List.mem_cons.mp hd with hdc | hdr
      · subst hdc; exact hc
      · exact ih hrest d hdr

theorem damageCreature_absent (cs : List Creature) (cid : ℕ) (dmg : ℚ)
    (h : ∀ c ∈ cs, c.id ≠ cid) : damageCreature cs cid dmg = (false, cs) := by
  induction cs with
  | nil => simp [damageCreature]
  | cons c rest ih =>
    have hc : c.id ≠ cid := h c (List.mem_cons_self c rest)
    have hrest := ih fun d hd => h d (List.mem_cons_of_mem c hd)
    simp [damageCreature, hc, hrest]

theorem damageCreature_killed_iff (cs : List Creature) (cid : ℕ) (dmg : ℚ)
    (h : CreatureInv cs) (hids : (cs.map Creature.id).Nodup) :
    (damageCreature cs cid dmg).1 = true ↔ ∃ c ∈ cs, c.id = cid ∧ c.hp ≤ dmg := by
  induction cs with
  | nil => simp [damageCreature]
  | cons c rest ih =>
    have hc := h c (List.mem_cons_self c rest)
    have hrest : CreatureInv rest := fun d hd => h d (List.mem_cons_of_mem c hd)
    have hids' : (rest.map Creature.id).Nodup := (List.nodup_cons.mp hids).2
    by_cases hid : c.id = cid
    · have hnotin : ∀ d ∈ rest, ¬(d.id = cid) := by
        intro d hd hdcid
        exact (List.nodup_cons.mp hids).1 (hid ▸ hdcid ▸ List.mem_map_of_mem Creature.id hd)
      by_cases hdead : c.hp - dmg ≤ 0
      · simp only [damageCreature, hid, hc.1, hdead]
        constructor
        · intro _; exact ⟨c, List.mem_cons_self c rest, hid, by linarith⟩
        · intro _; simp [hc.1]
      · simp only [damageCreature, hid, hc.1, hdead]
        constructor
        · intro hfalse; simp [hc.1, hdead] at hfalse
        · rintro ⟨d, hd, hdcid, hdhp⟩
          rcases List.mem_cons.mp hd with hdc | hdr
          · subst hdc; exact absurd (by linarith) hdead
          · exact absurd hdcid (hnotin d hdr)
    · simp only [damageCreature, hid, ite_false]
      rw [ih hrest hids']
      constructor
      · rintro ⟨d, hd, hrest'⟩; exact ⟨d, List.mem_cons_of_mem c hd, hrest'⟩
      · rintro ⟨d, hd, hdcid, hdhp⟩
        rcases List.mem_cons.mp hd with hdc | hdr
        · subst hdc; exact absurd hdcid hid
        · exact ⟨d, hdr, hdcid, hdhp⟩

/-- C10: under the list invariant (all stored creatures alive with positive
hp) and unique ids, `damageCreature` preserves the invariant (a creature
whose hp drops to ≤ 0 is removed in the same call), returns `true` exactly
when the targeted creature's hp drops to ≤ 0, returns `(false, unchanged)`
when the id is absent, and afterwards `getCreatures` is the whole list (all
with positive hp) with `getAliveCount` equal to its length. -/
theorem damage_creature_contract (cs : List Creature) (cid : ℕ) (dmg : ℚ)
    (h : CreatureInv cs) (hids : (cs.map Creature.id).Nodup) :
    CreatureInv (damageCreature cs cid dmg).2 ∧
    ((∀ c ∈ cs, c.id ≠ cid) → damageCreature cs cid dmg = (false, cs)) ∧
    ((damageCreature cs cid dmg).1 = true ↔ ∃ c ∈ cs, c.id = cid ∧ c.hp ≤ dmg) ∧
    getCreatures (damageCreature cs cid dmg).2 = (damageCreature cs cid dmg).2 ∧
    (∀ c ∈ getCreatures (damageCreature cs cid dmg).2, 0 < c.hp) ∧
    getAliveCount (damageCreature cs cid dmg).2 =
      (damageCreature cs cid dmg).2.length := by
  have hinv := damageCreature_inv cs cid dmg h
  refine ⟨hinv, damageCreature_absent cs cid dmg,
    damageCreature_killed_iff cs cid dmg h hids, ?_, ?_, rfl⟩
  · exact List.filter_eq_self.mpr fun c hc => by simp [(hinv c hc).1]
  · intro c hc
    exact (hinv c (List.mem_of_mem_filter hc)).2

/-- C10 witness: the contract applied to a concrete list where the hit
kills creature 0. -/
theorem damage_creature_contract_witness :
    (CreatureInv csC10 ∧ (csC10.map Creature.id).Nodup) ∧
    ((damageCreature csC10 0 10).1 = true ↔
      ∃ c ∈ csC10, c.id = 0 ∧ c.hp ≤ 10) := by
  have h : CreatureInv csC10 := by
    intro c hc
    simp only [csC10, List.mem_cons, List.not_mem_nil, or_false] at hc
    rcases hc with rfl | rfl <;> norm_num
  have hids : (csC10.map Creature.id).Nodup := by
    simp [csC10]
  exact ⟨⟨h, hids⟩, (damage_creature_contract csC10 0 10 h hids).2.2.1⟩

/-- C2 counterexample: with a direct-hit root of 1/5 s remaining, a puddle
contact (which would apply `GOO_ROOT_DURATION * 0.5 = 1/2 > 1/5`) leaves the
timer at 1/5 — not at the max of the two durations, because the puddle only
roots when the player is not already rooted. -/
theorem root_stacking_counterexample :
    (0 : ℚ) < 1 / 5 ∧ (1 / 5 : ℚ) < GOO_ROOT_DURATION * (1 / 2) ∧
    distSq 0 0 puddleC2.x puddleC2.y < puddleC2.radius ^ 2 ∧
    (updateGooPuddles (1 / 100) 0 0 [puddleC2] (1 / 5)).2 = 1 / 5 ∧
    (updateGooPuddles (1 / 100) 0 0 [puddleC2] (1 / 5)).2 ≠
      max (1 / 5) (GOO_ROOT_DURATION * (1 / 2)) := by
  refine ⟨by norm_num, by norm_num [GOO_ROOT_DURATION], ?_, ?_, ?_⟩
  · norm_num [distSq, puddleC2]
  · norm_num [updateGooPuddles, distSq, puddleC2, GOO_ROOT_DURATION]
  · norm_num [updateGooPuddles, distSq, puddleC2, GOO_ROOT_DURATION]

/-- Puddle processing never changes an already-positive root timer. -/
theorem updateGooPuddles_rooted_pos (dt px py : ℚ) (ps : List GooPuddle)
    (rooted : ℚ) (h : 0 < rooted) :
    (updateGooPuddles dt px py ps rooted).2 = rooted := by
  induction ps with
  | nil => rfl
  | cons p rest ih =>
    simp only [updateGooPuddles]
    rw [ih]
    have hcond : ¬(distSq px py p.x p.y < p.radius ^ 2 ∧ rooted ≤ 0) := by
      rintro ⟨-, hle⟩; linarith
    simp only [hcond, if_false]
    split <;> rfl

/-- C2 amended: the root timer is never summed.  A direct projectile hit
sets it to `GOO_ROOT_DURATION` unconditionally; a puddle contact sets it to
`GOO_ROOT_DURATION/2` only when the player is not currently rooted and
leaves an active timer unchanged.  In particular a direct hit immediately
followed by puddle contact yields exactly `GOO_ROOT_DURATION` (the larger
duration). -/
theorem root_set_not_summed (sq : ℚ → ℚ) (dt dt2 px py rooted : ℚ)
    (g : GooProjectile) (puddles ps : List GooPuddle)
    (hnotreach : ¬(distSq g.targetX g.targetY g.x g.y < 100))
    (hhit : distSq
      (g.x + (g.targetX - g.x) / sq (distSq g.targetX g.targetY g.x g.y) * g.speed * dt)
      (g.y + (g.targetY - g.y) / sq (distSq g.targetX g.targetY g.x g.y) * g.speed * dt)
      px py < 400) :
    (updateGooProjectiles sq dt px py [g] rooted puddles).2.1 = GOO_ROOT_DURATION ∧
    (updateGooPuddles dt2 px py ps
      (updateGooProjectiles sq dt px py [g] rooted puddles).2.1).2 =
      GOO_ROOT_DURATION ∧
    (∀ rt, 0 < rt → (updateGooPuddles dt2 px py ps rt).2 = rt) ∧
    (∀ p : GooPuddle, rooted ≤ 0 → distSq px py p.x p.y < p.radius ^ 2 →
      (updateGooPuddles dt2 px py [p] rooted).2 = GOO_ROOT_DURATION * (1 / 2)) := by
  have hproj : (updateGooProjectiles sq dt px py [g] rooted puddles).2.1 =
      GOO_ROOT_DURATION := by
    simp only [updateGooProjectiles, hnotreach, if_false, hhit, if_true]
  refine ⟨hproj, ?_, fun rt hrt => updateGooPuddles_rooted_pos dt2 px py ps rt hrt, ?_⟩
  · rw [hproj]
    exact updateGooPuddles_rooted_pos dt2 px py ps _ (by norm_num [GOO_ROOT_DURATION])
  · intro p hle hin
    simp only [updateGooPuddles, hin, hle, and_self, if_true]
    split <;> rfl

/-- C2 amended witness: a projectile launched from the origin toward
(100, 0) with the player at (30, 0) after one 0.1 s step. -/
theorem root_set_not_summed_witness :
    (¬(distSq (0 : ℚ) 0 100 0 < 100) ∧
      distSq ((0 : ℚ) + (100 - 0) / 100 * 300 * (1 / 10))
        ((0 : ℚ) + (0 - 0) / 100 * 300 * (1 / 10)) 30 0 < 400) ∧
    (updateGooProjectiles (fun _ => 100) (1 / 10) 30 0
      [⟨0, 0, 100, 0, 300⟩] 0 []).2.1 = GOO_ROOT_DURATION := by
  have h1 : ¬(distSq (100 : ℚ) 0 0 0 < 100) := by norm_num [distSq]
  have h2 : distSq
      ((0 : ℚ) + ((100 : ℚ) - 0) / (fun (_ : ℚ) => (100 : ℚ)) (distSq 100 0 0 0) * 300 * (1 / 10))
      ((0 : ℚ) + ((0 : ℚ) - 0) / (fun (_ : ℚ) => (100 : ℚ)) (distSq 100 0 0 0) * 300 * (1 / 10))
      30 0 < 400 := by
    norm_num [distSq]
  refine ⟨⟨by norm_num [distSq], by norm_num [distSq]⟩, ?_⟩
  exact (root_set_not_summed (fun _ => 100) (1 / 10) (1 / 100) 30 0 0
    ⟨0, 0, 100, 0, 300⟩ [] [] h1 h2).1

theorem fireLoop_spec (ws : List WeaponType) (creatures : List VisCreature)
    (cds : WeaponType → ℚ) (maxFire : ℕ) (targeted : List ℕ) (fired : ℕ) :
    ((fireLoop ws creatures cds maxFire targeted fired).map Prod.snd).Nodup ∧
    (∀ p ∈ fireLoop ws creatures cds maxFire targeted fired,
      p.2 ∉ targeted ∧ p.2 ∈ creatures.map VisCreature.id) ∧
    (fireLoop ws creatures cds maxFire targeted fired).length ≤ maxFire - fired := by
  induction ws generalizing targeted fired with
  | nil => simp [fireLoop]
  | cons w ws ih =>
    by_cases hbreak : maxFire ≤ fired
    · simp [fireLoop, hbreak]
    · by_cases hcd : 0 < cds w
      · simpa [fireLoop, hbreak, hcd] using ih targeted fired
      · rcases hfind : findNearestAvailableTarget w creatures targeted with _ | t
        · simpa [fireLoop, hbreak, hcd, hfind] using ih targeted fired
        · have hpred := List.find?_some hfind
          have hmem := List.mem_of_find?_eq_some hfind
          have htid : t.id ∉ targeted := by
            have hnc := (Bool.and_eq_true _ _ ▸ hpred).2
            intro hcontra
            simp [List.contains, List.elem_eq_mem, hcontra] at hnc
          have htmem : t.id ∈ creatures.map VisCreature.id :=
            List.mem_map_of_mem VisCreature.id hmem
          obtain ⟨ihn, ihm, ihl⟩ := ih (t.id :: targeted) (fired + 1)
          refine ⟨?_, ?_, ?_⟩
          · simp only [fireLoop, hbreak, if_false, hcd, hfind, List.map_cons,
              List.nodup_cons]
            refine ⟨fun hcontra => ?_, ihn⟩
            rcases List.mem_map.mp hcontra with ⟨p, hp, hpid⟩
            exact (ihm p hp).1 (hpid ▸ List.mem_cons_self t.id targeted)
          · intro p hp
            simp only [fireLoop, hbreak, if_false, hcd, hfind] at hp
            rcases List.mem_cons.mp hp with rfl | hp'
            · exact ⟨htid, htmem⟩
            · obtain ⟨hnot, hm⟩ := ihm p hp'
              exact ⟨fun hcontra => hnot (List.mem_cons_of_mem _ hcontra), hm⟩
          · simp only [fireLoop, hbreak, if_false, hcd, hfind, List.length_cons]
            omega

/-- C4: in one combat tick no two distinct owned weapons fire at the same
enemy id — the claimed ids are pairwise distinct, each fired weapon claims a
creature from the visible-target list, and the number of weapons that fire
is at most the number of qualifying visible targets. -/
theorem weapon_target_exclusivity (dt : ℚ) (owned : List WeaponType)
    (visible : List VisCreature) (cds : WeaponType → ℚ) :
    ((combatUpdateFires dt owned visible cds).map Prod.snd).Nodup ∧
    (∀ p ∈ combatUpdateFires dt owned visible cds,
      p.2 ∈ visible.map VisCreature.id) ∧
    (combatUpdateFires dt owned visible cds).length ≤ visible.length := by
  unfold combatUpdateFires
  by_cases hempty : visible.length = 0
  · simp [hempty]
  · simp only [hempty, if_false]
    obtain ⟨hn, hm, hl⟩ := fireLoop_spec (sortWeapons owned) visible
      (fun w => cds w - dt) (min visible.length (sortWeapons owned).length) [] 0
    exact ⟨hn, fun p hp => (hm p hp).2, le_trans hl (by omega)⟩

theorem spawnLoop_accepts_only_valid (e : SpawnEnv) (draws : ℕ → ℤ × ℤ)
    (cand : ℤ × ℤ) :
    ∀ i fuel, spawnLoop e draws i fuel = some cand → validSpawnTile e cand = true := by
  intro i fuel
  induction fuel generalizing i with
  | zero => intro h; simp [spawnLoop] at h
  | succ n ih =>
    intro h
    by_cases hv : validSpawnTile e (draws i) = true
    · simp only [spawnLoop, hv, if_true, Option.some.injEq] at h
      exact h ▸ hv
    · simp only [spawnLoop, hv, if_false] at h
      exact ih (i + 1) h

/-- C9: for every draw sequence, `spawnSingleCrawler` never creates a
crawler on a lit tile, a non-floor tile, an out-of-bounds tile, or a tile
whose center is closer to the player than the minimum spawn distance; and
when every attempt is rejected it returns `false` with the creature list
(and id counter) unchanged. -/
theorem spawn_crawler_placement (e : SpawnEnv) (draws : ℕ → ℤ × ℤ)
    (creatures : List Creature) (nid : ℕ)
    (baseHp baseSpeed size hpMult speedMult : ℚ) :
    ((spawnSingleCrawler e draws creatures nid baseHp baseSpeed size hpMult speedMult).1 = false →
      spawnSingleCrawler e draws creatures nid baseHp baseSpeed size hpMult speedMult =
        (false, creatures, nid)) ∧
    ((spawnSingleCrawler e draws creatures nid baseHp baseSpeed size hpMult speedMult).1 = true →
      ∃ tx ty : ℕ, tx < e.width ∧ ty < e.height ∧
        e.tiles ty tx = 0 ∧
        e.lit tx ty = false ∧
        minSpawnDistance e ^ 2 ≤
          distSq (tileToWorld tx ty).1 (tileToWorld tx ty).2 e.playerX e.playerY ∧
        (spawnSingleCrawler e draws creatures nid baseHp baseSpeed size hpMult speedMult).2.1 =
          creatures ++ [createCrawler baseHp baseSpeed size hpMult speedMult nid
            (tileToWorld tx ty).1 (tileToWorld tx ty).2]) := by
  rcases hloop : spawnLoop e draws 0 50 with _ | cand
  · constructor
    · intro _; simp [spawnSingleCrawler, hloop]
    · intro htrue; simp [spawnSingleCrawler, hloop] at htrue
  · have hv := spawnLoop_accepts_only_valid e draws cand 0 50 hloop
    simp only [validSpawnTile, Bool.and_eq_true, decide_eq_true_eq,
      Bool.not_eq_true', Bool.and_eq_false_iff] at hv
    obtain ⟨⟨⟨⟨⟨⟨⟨hx0, hxw⟩, hy0⟩, hyh⟩, hfloor⟩, hlit⟩, hdist⟩, -⟩ := hv
    constructor
    · intro hfalse; simp [spawnSingleCrawler, hloop] at hfalse
    · intro _
      refine ⟨cand.1.toNat, cand.2.toNat, ?_, ?_, hfloor, hlit, hdist, ?_⟩
      · omega
      · omega
      · simp [spawnSingleCrawler, hloop]

/-- C9 witness: with an all-lit oracle the spawn returns `false` and the
creature list is unchanged. -/
theorem spawn_crawler_placement_witness :
    (spawnSingleCrawler spawnEnvC9 (fun _ => (1, 1)) [] 0 20 70 20 1 1).1 = false ∧
    spawnSingleCrawler spawnEnvC9 (fun _ => (1, 1)) [] 0 20 70 20 1 1 =
      (false, [], 0) := by
  have h1 : (spawnSingleCrawler spawnEnvC9 (fun _ => (1, 1)) [] 0 20 70 20 1 1).1 = false := by
    decide
  exact ⟨h1,
    (spawn_crawler_placement spawnEnvC9 (fun _ => (1, 1)) [] 0 20 70 20 1 1).1 h1⟩

theorem carveList_eq (ps : List (ℕ × ℕ)) (g : Grid) (x y : ℕ) :
    carveList g ps y x = if (x, y) ∈ ps then 0 else g y x := by
  induction ps generalizing g with
  | nil => simp [carveList]
  | cons p rest ih =>
    show carveList (setFloor g p.1 p.2) rest y x = _
    rw [ih]
    rcases eq_or_ne (x, y) p with h | h
    · subst h
      by_cases hmem : ((x, y) : ℕ × ℕ) ∈ rest <;>
        simp [hmem, setFloor]
    · have hne : ¬(y = p.2 ∧ x = p.1) := by
        rintro ⟨h1, h2⟩
        exact h (by rw [Prod.ext_iff]; exact ⟨h2, h1⟩)
      by_cases hmem : ((x, y) : ℕ × ℕ) ∈ rest <;>
        simp [hmem, setFloor, hne, h]

theorem isFloor_carveList (ps : List (ℕ × ℕ)) (g : Grid) (p : ℕ × ℕ) :
    isFloor (carveList g ps) p ↔ p ∈ ps ∨ isFloor g p := by
  rcases p with ⟨x, y⟩
  simp only [isFloor, carveList_eq]
  by_cases hmem : ((x, y) : ℕ × ℕ) ∈ ps <;> simp [hmem]

theorem isFloor_carveList_of (ps : List (ℕ × ℕ)) (g : Grid) (p : ℕ × ℕ)
    (h : isFloor g p) : isFloor (carveList g ps) p :=
  (isFloor_carveList ps g p).mpr (Or.inr h)

theorem mem_roomPositions (r : Room) (p : ℕ × ℕ) :
    p ∈ roomPositions r ↔ roomRect r p := by
  rcases p with ⟨a, b⟩
  simp only [roomPositions, roomRect, List.mem_flatMap, List.mem_map, List.mem_range]
  constructor
  · rintro ⟨dy, hdy, dx, hdx, heq⟩
    obtain ⟨h1, h2⟩ := Prod.mk.injEq .. ▸ heq
    refine ⟨?_, ?_, ?_, ?_⟩ <;> omega
  · rintro ⟨h1, h2, h3, h4⟩
    exact ⟨b - r.y, by omega, a - r.x, by omega, by rw [Prod.ext_iff]; constructor <;> simp <;> omega⟩

theorem mem_hCorridorPositions (x1 x2 y bound : ℕ) (p : ℕ × ℕ) :
    p ∈ hCorridorPositions x1 x2 y bound ↔
      (min x1 x2 ≤ p.1 ∧ p.1 ≤ max x1 x2 ∧ y ≤ p.2 ∧ p.2 ≤ y + 2 ∧ p.2 < bound) := by
  rcases p with ⟨a, b⟩
  simp only [hCorridorPositions, List.mem_flatMap, List.mem_filterMap, List.mem_range]
  constructor
  · rintro ⟨i, hi, dy, hdy, heq⟩
    split at heq
    · obtain ⟨h1, h2⟩ := Prod.mk.injEq .. ▸ (Option.some.injEq .. ▸ heq)
      refine ⟨?_, ?_, ?_, ?_, ?_⟩ <;> omega
    · exact absurd heq (by simp)
  · rintro ⟨h1, h2, h3, h4, h5⟩
    refine ⟨a - min x1 x2, by omega, b - y, by omega, ?_⟩
    rw [if_pos (by omega)]
    simp only [Option.some.injEq, Prod.mk.injEq]
    constructor <;> omega

theorem mem_vCorridorPositions (y1 y2 x bound : ℕ) (p : ℕ × ℕ) :
    p ∈ vCorridorPositions y1 y2 x bound ↔
      (x ≤ p.1 ∧ p.1 ≤ x + 2 ∧ p.1 < bound ∧ min y1 y2 ≤ p.2 ∧ p.2 ≤ max y1 y2) := by
  rcases p with ⟨a, b⟩
  simp only [vCorridorPositions, List.mem_flatMap, List.mem_filterMap, List.mem_range]
  constructor
  · rintro ⟨i, hi, dx, hdx, heq⟩
    split at heq
    · obtain ⟨h1, h2⟩ := Prod.mk.injEq .. ▸ (Option.some.injEq .. ▸ heq)
      refine ⟨?_, ?_, ?_, ?_, ?_⟩ <;> omega
    · exact absurd heq (by simp)
  · rintro ⟨h1, h2, h3, h4, h5⟩
    refine ⟨b - min y1 y2, by omega, a - x, by omega, ?_⟩
    rw [if_pos (by omega)]
    simp only [Option.some.injEq, Prod.mk.injEq]
    constructor <;> omega

theorem tileAdj_symm : ∀ p q : ℕ × ℕ, TileAdj p q → TileAdj q p := by
  intro p q h
  unfold TileAdj at *
  omega

theorem floorStep_symm (g : Grid) : ∀ p q, FloorStep g p q → FloorStep g q p := by
  rintro p q ⟨hadj, hp, hq⟩
  exact ⟨tileAdj_symm p q hadj, hq, hp⟩

theorem reach_symm (g : Grid) {p q : ℕ × ℕ} (h : Reach g p q) : Reach g q p :=
  Relation.ReflTransGen.symmetric (fun _ _ => floorStep_symm g _ _) h

theorem reach_mono (g g' : Grid) (hmono : ∀ p, isFloor g p → isFloor g' p)
    {p q : ℕ × ℕ} (h : Reach g p q) : Reach g' p q :=
  Relation.ReflTransGen.mono
    (fun a b hab => ⟨hab.1, hmono a hab.2.1, hmono b hab.2.2⟩) h

/-- A horizontal run of floor tiles is a path (left to right). -/
theorem reach_horiz_le (g : Grid) (y a b : ℕ) (hab : a ≤ b)
    (hfl : ∀ x, a ≤ x → x ≤ b → isFloor g (x, y)) : Reach g (a, y) (b, y) := by
  induction b, hab using Nat.le_induction with
  | base => exact Relation.ReflTransGen.refl
  | succ b hab ih =>
    have hprev : Reach g (a, y) (b, y) :=
      ih fun x h1 h2 => hfl x h1 (by omega)
    exact hprev.tail ⟨Or.inr ⟨rfl, Or.inl rfl⟩,
      hfl b (by omega) (by omega), hfl (b + 1) (by omega) (by omega)⟩

/-- A horizontal run of floor tiles is a path (either direction). -/
theorem reach_horiz (g : Grid) (y a b : ℕ)
    (hfl : ∀ x, min a b ≤ x → x ≤ max a b → isFloor g (x, y)) :
    Reach g (a, y) (b, y) := by
  rcases le_total a b with h | h
  · exact reach_horiz_le g y a b h fun x h1 h2 =>
      hfl x (by omega) (by omega)
  · exact reach_symm g (reach_horiz_le g y b a h fun x h1 h2 =>
      hfl x (by omega) (by omega))

/-- A vertical run of floor tiles is a path (top to bottom). -/
theorem reach_vert_le (g : Grid) (x a b : ℕ) (hab : a ≤ b)
    (hfl : ∀ y, a ≤ y → y ≤ b → isFloor g (x, y)) : Reach g (x, a) (x, b) := by
  induction b, hab using Nat.le_induction with
  | base => exact Relation.ReflTransGen.refl
  | succ b hab ih =>
    have hprev : Reach g (x, a) (x, b) :=
      ih fun y h1 h2 => hfl y h1 (by omega)
    exact hprev.tail ⟨Or.inl ⟨rfl, Or.inl rfl⟩,
      hfl b (by omega) (by omega), hfl (b + 1) (by omega) (by omega)⟩

/-- A vertical run of floor tiles is a path (either direction). -/
theorem reach_vert (g : Grid) (x a b : ℕ)
    (hfl : ∀ y, min a b ≤ y → y ≤ max a b → isFloor g (x, y)) :
    Reach g (x, a) (x, b) := by
  rcases le_total a b with h | h
  · exact reach_vert_le g x a b h fun y h1 h2 => hfl y (by omega) (by omega)
  · exact reach_symm g (reach_vert_le g x b a h fun y h1 h2 =>
      hfl y (by omega) (by omega))

/-- Any two cells of an all-floor axis-aligned rectangle are connected
(row of `p`, then column of `q`). -/
theorem reach_rect (g : Grid) (x1 x2 y1 y2 : ℕ)
    (hfl : ∀ p : ℕ × ℕ, x1 ≤ p.1 → p.1 ≤ x2 → y1 ≤ p.2 → p.2 ≤ y2 → isFloor g p)
    (p q : ℕ × ℕ)
    (hp : x1 ≤ p.1 ∧ p.1 ≤ x2 ∧ y1 ≤ p.2 ∧ p.2 ≤ y2)
    (hq : x1 ≤ q.1 ∧ q.1 ≤ x2 ∧ y1 ≤ q.2 ∧ q.2 ≤ y2) : Reach g p q := by
  obtain ⟨hpx1, hpx2, hpy1, hpy2⟩ := hp
  obtain ⟨hqx1, hqx2, hqy1, hqy2⟩ := hq
  have h1 : Reach g (p.1, p.2) (q.1, p.2) :=
    reach_horiz g p.2 p.1 q.1 fun x hx1 hx2 =>
      hfl (x, p.2) (by omega) (by omega) (by omega) (by omega)
  have h2 : Reach g (q.1, p.2) (q.1, q.2) :=
    reach_vert g q.1 p.2 q.2 fun y hy1 hy2 =>
      hfl (q.1, y) (by omega) (by omega) (by omega) (by omega)
  exact Relation.ReflTransGen.trans (by simpa using h1) (by simpa using h2)

theorem roomWF_center_bounds (gridW gridH : ℕ) (r : Room) (h : RoomWF gridW gridH r) :
    r.x ≤ r.centerX ∧ r.centerX < r.x + r.width ∧
    r.y ≤ r.centerY ∧ r.centerY < r.y + r.height ∧
    r.centerX + 2 < gridW ∧ r.centerY + 2 < gridH := by
  obtain ⟨hcx, hcy, hw, hh, hx2, hxw, hy2, hyh⟩ := h
  omega

theorem corridorL_spec (gridW gridH : ℕ) (a b : Room) (dir : Bool) (g : Grid)
    (ha : RoomWF gridW gridH a) (hb : RoomWF gridW gridH b) :
    (∀ p, isFloor g p → isFloor (corridorL g gridW gridH a b dir) p) ∧
    Reach (corridorL g gridW gridH a b dir)
      (a.centerX, a.centerY) (b.centerX, b.centerY) ∧
    (∀ p, isFloor (corridorL g gridW gridH a b dir) p →
      isFloor g p ∨
        Reach (corridorL g gridW gridH a b dir) p (a.centerX, a.centerY)) := by
  have hA := roomWF_center_bounds gridW gridH a ha
  have hB := roomWF_center_bounds gridW gridH b hb
  cases dir with
  | true =>
    have hfloor : ∀ p, isFloor (corridorL g gridW gridH a b true) p ↔
        (p ∈ vCorridorPositions a.centerY b.centerY b.centerX gridW ∨
          p ∈ hCorridorPositions a.centerX b.centerX a.centerY gridH) ∨
          isFloor g p := by
      intro p
      show isFloor (carveList (carveList g _) _) p ↔ _
      rw [isFloor_carveList, isFloor_carveList]
      tauto
    have hflh : ∀ p : ℕ × ℕ, min a.centerX b.centerX ≤ p.1 →
        p.1 ≤ max a.centerX b.centerX → a.centerY ≤ p.2 → p.2 ≤ a.centerY + 2 →
        isFloor (corridorL g gridW gridH a b true) p := by
      intro p h1 h2 h3 h4
      rw [hfloor]
      exact Or.inl (Or.inr ((mem_hCorridorPositions _ _ _ _ p).mpr
        ⟨h1, h2, h3, h4, by omega⟩))
    have hflv : ∀ p : ℕ × ℕ, b.centerX ≤ p.1 → p.1 ≤ b.centerX + 2 →
        min a.centerY b.centerY ≤ p.2 → p.2 ≤ max a.centerY b.centerY →
        isFloor (corridorL g gridW gridH a b true) p := by
      intro p h1 h2 h3 h4
      rw [hfloor]
      exact Or.inl (Or.inl ((mem_vCorridorPositions _ _ _ _ p).mpr
        ⟨h1, h2, by omega, h3, h4⟩))
    have hrH : ∀ p q : ℕ × ℕ,
        (min a.centerX b.centerX ≤ p.1 ∧ p.1 ≤ max a.centerX b.centerX ∧
          a.centerY ≤ p.2 ∧ p.2 ≤ a.centerY + 2) →
        (min a.centerX b.centerX ≤ q.1 ∧ q.1 ≤ max a.centerX b.centerX ∧
          a.centerY ≤ q.2 ∧ q.2 ≤ a.centerY + 2) →
        Reach (corridorL g gridW gridH a b true) p q :=
      fun p q hp hq => reach_rect _ _ _ _ _
        (fun r r1 r2 r3 r4 => hflh r r1 r2 r3 r4) p q hp hq
    have hrV : ∀ p q : ℕ × ℕ,
        (b.centerX ≤ p.1 ∧ p.1 ≤ b.centerX + 2 ∧
          min a.centerY b.centerY ≤ p.2 ∧ p.2 ≤ max a.centerY b.centerY) →
        (b.centerX ≤ q.1 ∧ q.1 ≤ b.centerX + 2 ∧
          min a.centerY b.centerY ≤ q.2 ∧ q.2 ≤ max a.centerY b.centerY) →
        Reach (corridorL g gridW gridH a b true) p q :=
      fun p q hp hq => reach_rect _ _ _ _ _
        (fun r r1 r2 r3 r4 => hflv r r1 r2 r3 r4) p q hp hq
    have hjoint1 : Reach (corridorL g gridW gridH a b true)
        (a.centerX, a.centerY) (b.centerX, a.centerY) :=
      hrH _ _ (by simp <;> omega) (by simp <;> omega)
    have hjoint2 : Reach (corridorL g gridW gridH a b true)
        (b.centerX, a.centerY) (b.centerX, b.centerY) :=
      hrV _ _ (by simp <;> omega) (by simp <;> omega)
    refine ⟨fun p hp => (hfloor p).mpr (Or.inr hp), hjoint1.trans hjoint2, ?_⟩
    intro p hp
    rw [hfloor] at hp
    rcases hp with (hv | hh) | hg
    · right
      have h' := (mem_vCorridorPositions _ _ _ _ p).mp hv
      have h1 : Reach (corridorL g gridW gridH a b true) p (b.centerX, a.centerY) :=
        hrV _ _ ⟨h'.1, h'.2.1, h'.2.2.2.1, h'.2.2.2.2⟩ (by simp <;> omega)
      have h2 : Reach (corridorL g gridW gridH a b true)
          (b.centerX, a.centerY) (a.centerX, a.centerY) :=
        hrH _ _ (by simp <;> omega) (by simp <;> omega)
      exact h1.trans h2
    · right
      have h' := (mem_hCorridorPositions _ _ _ _ p).mp hh
      exact hrH _ _ ⟨h'.1, h'.2.1, h'.2.2.1, h'.2.2.2.1⟩ (by simp <;> omega)
    · exact Or.inl hg
  | false =>
    have hfloor : ∀ p, isFloor (corridorL g gridW gridH a b false) p ↔
        (p ∈ hCorridorPositions a.centerX b.centerX b.centerY gridH ∨
          p ∈ vCorridorPositions a.centerY b.centerY a.centerX gridW) ∨
          isFloor g p := by
      intro p
      show isFloor (carveList (carveList g _) _) p ↔ _
      rw [isFloor_carveList, isFloor_carveList]
      tauto
    have hflv : ∀ p : ℕ × ℕ, a.centerX ≤ p.1 → p.1 ≤ a.centerX + 2 →
        min a.centerY b.centerY ≤ p.2 → p.2 ≤ max a.centerY b.centerY →
        isFloor (corridorL g gridW gridH a b false) p := by
      intro p h1 h2 h3 h4
      rw [hfloor]
      exact Or.inl (Or.inr ((mem_vCorridorPositions _ _ _ _ p).mpr
        ⟨h1, h2, by omega, h3, h4⟩))
    have hflh : ∀ p : ℕ × ℕ, min a.centerX b.centerX ≤ p.1 →
        p.1 ≤ max a.centerX b.centerX → b.centerY ≤ p.2 → p.2 ≤ b.centerY + 2 →
        isFloor (corridorL g gridW gridH a b false) p := by
      intro p h1 h2 h3 h4
      rw [hfloor]
      exact Or.inl (Or.inl ((mem_hCorridorPositions _ _ _ _ p).mpr
        ⟨h1, h2, h3, h4, by omega⟩))
    have hrV : ∀ p q : ℕ × ℕ,
        (a.centerX ≤ p.1 ∧ p.1 ≤ a.centerX + 2 ∧
          min a.centerY b.centerY ≤ p.2 ∧ p.2 ≤ max a.centerY b.centerY) →
        (a.centerX ≤ q.1 ∧ q.1 ≤ a.centerX + 2 ∧
          min a.centerY b.centerY ≤ q.2 ∧ q.2 ≤ max a.centerY b.centerY) →
        Reach (corridorL g gridW gridH a b false) p q :=
      fun p q hp hq => reach_rect _ _ _ _ _
        (fun r r1 r2 r3 r4 => hflv r r1 r2 r3 r4) p q hp hq
    have hrH : ∀ p q : ℕ × ℕ,
        (min a.centerX b.centerX ≤ p.1 ∧ p.1 ≤ max a.centerX b.centerX ∧
          b.centerY ≤ p.2 ∧ p.2 ≤ b.centerY + 2) →
        (min a.centerX b.centerX ≤ q.1 ∧ q.1 ≤ max a.centerX b.centerX ∧
          b.centerY ≤ q.2 ∧ q.2 ≤ b.centerY + 2) →
        Reach (corridorL g gridW gridH a b false) p q :=
      fun p q hp hq => reach_rect _ _ _ _ _
        (fun r r1 r2 r3 r4 => hflh r r1 r2 r3 r4) p q hp hq
    have hjoint1 : Reach (corridorL g gridW gridH a b false)
        (a.centerX, a.centerY) (a.centerX, b.centerY) :=
      hrV _ _ (by simp <;> omega) (by simp <;> omega)
    have hjoint2 : Reach (corridorL g gridW gridH a b false)
        (a.centerX, b.centerY) (b.centerX, b.centerY) :=
      hrH _ _ (by simp <;> omega) (by simp <;> omega)
    refine ⟨fun p hp => (hfloor p).mpr (Or.inr hp), hjoint1.trans hjoint2, ?_⟩
    intro p hp
    rw [hfloor] at hp
    rcases hp with (hh | hv) | hg
    · right
      have h' := (mem_hCorridorPositions _ _ _ _ p).mp hh
      have h1 : Reach (corridorL g gridW gridH a b false) p (a.centerX, b.centerY) :=
        hrH _ _ ⟨h'.1, h'.2.1, h'.2.2.1, h'.2.2.2.1⟩ (by simp <;> omega)
      have h2 : Reach (corridorL g gridW gridH a b false)
          (a.centerX, b.centerY) (a.centerX, a.centerY) :=
        hrV _ _ (by simp <;> omega) (by simp <;> omega)
      exact h1.trans h2
    · right
      have h' := (mem_vCorridorPositions _ _ _ _ p).mp hv
      exact hrV _ _ ⟨h'.1, h'.2.1, h'.2.2.2.1, h'.2.2.2.2⟩ (by simp <;> omega)
    · exact Or.inl hg

theorem connectGo_spec (gridW gridH : ℕ) (dirs : ℕ → Bool) :
    ∀ (rest : List Room) (a : Room) (g : Grid) (i : ℕ),
    (∀ r ∈ a :: rest, RoomWF gridW gridH r) →
    (∀ r ∈ a :: rest, ∀ p, roomRect r p → isFloor g p) →
    (∀ p, isFloor g p → isFloor (connectGo gridW gridH dirs g (a :: rest) i) p) ∧
    (∀ p, isFloor (connectGo gridW gridH dirs g (a :: rest) i) p →
      isFloor g p ∨
        Reach (connectGo gridW gridH dirs g (a :: rest) i) p (a.centerX, a.centerY)) ∧
    (∀ r ∈ a :: rest,
      Reach (connectGo gridW gridH dirs g (a :: rest) i)
        (r.centerX, r.centerY) (a.centerX, a.centerY)) := by
  intro rest
  induction rest with
  | nil =>
    intro a g i _ _
    refine ⟨fun p hp => hp, fun p hp => Or.inl hp, ?_⟩
    intro r hr
    have : r = a := by simpa using hr
    subst this
    exact Relation.ReflTransGen.refl
  | cons b rest ih =>
    intro a g i hwf hrect
    have hwa : RoomWF gridW gridH a := hwf a (List.mem_cons_self a _)
    have hwb : RoomWF gridW gridH b :=
      hwf b (List.mem_cons_of_mem a (List.mem_cons_self b _))
    obtain ⟨cmono, creach, cdec⟩ :=
      corridorL_spec gridW gridH a b (dirs i) g hwa hwb
    have hwf' : ∀ r ∈ b :: rest, RoomWF gridW gridH r :=
      fun r hr => hwf r (List.mem_cons_of_mem a hr)
    have hrect' : ∀ r ∈ b :: rest, ∀ p, roomRect r p →
        isFloor (corridorL g gridW gridH a b (dirs i)) p :=
      fun r hr p hp => cmono p (hrect r (List.mem_cons_of_mem a hr) p hp)
    obtain ⟨imono, idec, icent⟩ :=
      ih b (corridorL g gridW gridH a b (dirs i)) (i + 1) hwf' hrect'
    have hstar : connectGo gridW gridH dirs g (a :: b :: rest) i =
        connectGo gridW gridH dirs (corridorL g gridW gridH a b (dirs i))
          (b :: rest) (i + 1) := rfl
    rw [hstar]
    have hba : Reach
        (connectGo gridW gridH dirs (corridorL g gridW gridH a b (dirs i))
          (b :: rest) (i + 1))
        (b.centerX, b.centerY) (a.centerX, a.centerY) :=
      reach_symm _ (reach_mono _ _ imono creach)
    refine ⟨fun p hp => imono p (cmono p hp), ?_, ?_⟩
    · intro p hp
      rcases idec p hp with h1 | h2
      · rcases cdec p h1 with hg | hra
        · exact Or.inl hg
        · exact Or.inr (reach_mono _ _ imono hra)
      · exact Or.inr (h2.trans hba)
    · intro r hr
      rcases List.mem_cons.mp hr with rfl | hr'
      · exact Relation.ReflTransGen.refl
      · exact (icent r hr').trans hba

theorem mkRoom_wf (gridW gridH : ℕ) (c : Cand) (hc : CandOK gridW gridH c) :
    RoomWF gridW gridH (mkRoom c) := by
  obtain ⟨h1, h2, h3, h4, h5, h6⟩ := hc
  exact ⟨rfl, rfl, h1, h2, h3, h4, h5, h6⟩

theorem placeStep_inv (gridW gridH : ℕ) (st : GenState) (c : Cand)
    (hc : CandOK gridW gridH c) (h : PlaceInv gridW gridH st) :
    PlaceInv gridW gridH (placeStep st c) := by
  obtain ⟨hwf, hrect, hcov, hpw⟩ := h
  unfold placeStep
  by_cases hov : (st.rooms.any fun q => roomsOverlap (mkRoom c) q 2) = true
  · simpa [hov] using ⟨hwf, hrect, hcov, hpw⟩
  · have hov' : ∀ q ∈ st.rooms, roomsOverlap (mkRoom c) q 2 = false := by
      intro q hq
      have := List.any_eq_false.mp (Bool.not_eq_true _ ▸ hov) q hq
      simpa using this
    simp only [hov, if_false]
    refine ⟨?_, ?_, ?_, ?_⟩
    · intro r hr
      rcases List.mem_append.mp hr with hr' | hr'
      · exact hwf r hr'
      · have : r = mkRoom c := by simpa using hr'
        exact this ▸ mkRoom_wf gridW gridH c hc
    · intro r hr p hp
      rcases List.mem_append.mp hr with hr' | hr'
      · exact isFloor_carveList_of _ _ _ (hrect r hr' p hp)
      · have : r = mkRoom c := by simpa using hr'
        subst this
        exact (isFloor_carveList _ _ _).mpr
          (Or.inl ((mem_roomPositions _ p).mpr hp))
    · intro p hp
      rcases (isFloor_carveList _ _ _).mp hp with hmem | hfl
      · exact ⟨mkRoom c, List.mem_append.mpr (Or.inr (List.mem_singleton.mpr rfl)),
          (mem_roomPositions _ p).mp hmem⟩
      · obtain ⟨r, hr, hrp⟩ := hcov p hfl
        exact ⟨r, List.mem_append.mpr (Or.inl hr), hrp⟩
    · refine List.pairwise_append.mpr ⟨hpw, List.pairwise_singleton _ _, ?_⟩
      intro u hu v hv
      have : v = mkRoom c := by simpa using hv
      subst this
      exact hov' u hu

theorem placeRooms_inv (gridW gridH : ℕ) (cands : List Cand)
    (hc : ∀ c ∈ cands, CandOK gridW gridH c) :
    PlaceInv gridW gridH (placeRooms cands) := by
  have hbase : PlaceInv gridW gridH ⟨initialGrid, []⟩ := by
    refine ⟨by simp, by simp, ?_, by simp⟩
    intro p hp
    exact absurd hp (by simp [isFloor, initialGrid])
  unfold placeRooms
  have haux : ∀ (l : List Cand) (st : GenState), PlaceInv gridW gridH st →
      (∀ c ∈ l, CandOK gridW gridH c) → PlaceInv gridW gridH (l.foldl placeStep st) := by
    intro l
    induction l with
    | nil => intro st h _; exact h
    | cons c rest ih =>
      intro st h hcl
      exact ih (placeStep st c)
        (placeStep_inv gridW gridH st c (hcl c (List.mem_cons_self c rest)) h)
        (fun d hd => hcl d (List.mem_cons_of_mem c hd))
  exact haux cands _ hbase hc

theorem extraStep_inv (gridW gridH : ℕ) (rooms : List Room) (picks : ℕ → ℕ × ℕ)
    (dirs : ℕ → Bool) (c0 : ℕ × ℕ) (g : Grid) (i : ℕ)
    (hwf : ∀ r ∈ rooms, RoomWF gridW gridH r)
    (h : ConnectedInv gridW gridH rooms c0 g) :
    ConnectedInv gridW gridH rooms c0 (extraStep gridW gridH rooms picks dirs g i) := by
  obtain ⟨hrect, hcent, hall⟩ := h
  unfold extraStep
  rcases ha : rooms.get? (picks i).1 with _ | a
  · exact ⟨hrect, hcent, hall⟩
  · rcases hb : rooms.get? (picks i).2 with _ | b
    · exact ⟨hrect, hcent, hall⟩
    · show ConnectedInv gridW gridH rooms c0
        (if (picks i).1 ≠ (picks i).2 then corridorL g gridW gridH a b (dirs i) else g)
      by_cases hne : (picks i).1 ≠ (picks i).2
      · rw [if_pos hne]
        have hma : a ∈ rooms := List.get?_mem ha
        have hmb : b ∈ rooms := List.get?_mem hb
        obtain ⟨cmono, creach, cdec⟩ :=
          corridorL_spec gridW gridH a b (dirs i) g (hwf a hma) (hwf b hmb)
        refine ⟨fun r hr p hp => cmono p (hrect r hr p hp),
          fun r hr => reach_mono _ _ cmono (hcent r hr), ?_⟩
        intro p hp
        rcases cdec p hp with hg | hra
        · exact reach_mono _ _ cmono (hall p hg)
        · exact hra.trans (reach_mono _ _ cmono (hcent a hma))
      · rw [if_neg hne]
        exact ⟨hrect, hcent, hall⟩

theorem extraGo_inv (gridW gridH : ℕ) (rooms : List Room) (picks : ℕ → ℕ × ℕ)
    (dirs : ℕ → Bool) (c0 : ℕ × ℕ)
    (hwf : ∀ r ∈ rooms, RoomWF gridW gridH r) :
    ∀ (fuel i : ℕ) (g : Grid), ConnectedInv gridW gridH rooms c0 g →
      ConnectedInv gridW gridH rooms c0 (extraGo gridW gridH rooms picks dirs g i fuel) := by
  intro fuel
  induction fuel with
  | zero => intro i g h; exact h
  | succ n ih =>
    intro i g h
    exact ih (i + 1) _ (extraStep_inv gridW gridH rooms picks dirs c0 g i hwf h)

theorem getLastD_mem (l : List Room) (d : Room) :
    l.getLastD d = d ∨ l.getLastD d ∈ l := by
  induction l generalizing d with
  | nil => exact Or.inl rfl
  | cons a l ih =>
    rw [List.getLastD_cons]
    rcases ih a with h | h
    · right
      rw [h]
      exact List.mem_cons_self a l
    · right
      exact List.mem_cons_of_mem a h

theorem fpGo_mem (rooms : List Room) (l : List (ℕ × ℕ)) :
    ∀ acc : ℤ × Room × Room, acc.2.1 ∈ rooms → acc.2.2 ∈ rooms →
      (fpGo rooms acc l).2.1 ∈ rooms ∧ (fpGo rooms acc l).2.2 ∈ rooms := by
  induction l with
  | nil => intro acc h1 h2; exact ⟨h1, h2⟩
  | cons ij restl ih =>
    intro acc h1 h2
    rcases ha : rooms.get? ij.1 with _ | a
    · have hstep : fpGo rooms acc (ij :: restl) = fpGo rooms acc restl := by
        simp [fpGo, ← List.get?_eq_getElem?, ha]
      rw [hstep]
      exact ih acc h1 h2
    · rcases hb : rooms.get? ij.2 with _ | b
      · have hstep : fpGo rooms acc (ij :: restl) = fpGo rooms acc restl := by
          simp [fpGo, ← List.get?_eq_getElem?, ha, hb]
        rw [hstep]
        exact ih acc h1 h2
      · have hstep : fpGo rooms acc (ij :: restl) =
            fpGo rooms
              (if acc.1 < roomDistSq a b then (roomDistSq a b, a, b) else acc) restl := by
          simp [fpGo, ← List.get?_eq_getElem?, ha, hb]
        rw [hstep]
        by_cases hlt : acc.1 < roomDistSq a b
        · rw [if_pos hlt]
          exact ih _ (List.get?_mem ha) (List.get?_mem hb)
        · rw [if_neg hlt]
          exact ih acc h1 h2

theorem fpGo_spec (rooms : List Room) (l : List (ℕ × ℕ)) :
    ∀ acc : ℤ × Room × Room,
    (acc.1 = 0 ∨ (0 < acc.1 ∧ acc.1 = roomDistSq acc.2.1 acc.2.2)) →
    acc.1 ≤ (fpGo rooms acc l).1 ∧
    ((fpGo rooms acc l).1 = 0 ∨ (0 < (fpGo rooms acc l).1 ∧
      (fpGo rooms acc l).1 =
        roomDistSq (fpGo rooms acc l).2.1 (fpGo rooms acc l).2.2)) ∧
    (∀ ij ∈ l, ∀ a b, rooms.get? ij.1 = some a → rooms.get? ij.2 = some b →
      roomDistSq a b ≤ (fpGo rooms acc l).1) := by
  induction l with
  | nil =>
    intro acc hval
    exact ⟨le_refl _, hval, by simp⟩
  | cons ij restl ih =>
    intro acc hval
    rcases ha : rooms.get? ij.1 with _ | a
    · have hstep : fpGo rooms acc (ij :: restl) = fpGo rooms acc restl := by
        simp [fpGo, ← List.get?_eq_getElem?, ha]
      rw [hstep]
      obtain ⟨i1, i2, i3⟩ := ih acc hval
      refine ⟨i1, i2, ?_⟩
      intro ij' hij' a' b' ha' hb'
      rcases List.mem_cons.mp hij' with rfl | hij''
      · rw [ha] at ha'; exact absurd ha' (by simp)
      · exact i3 ij' hij'' a' b' ha' hb'
    · rcases hb : rooms.get? ij.2 with _ | b
      · have hstep : fpGo rooms acc (ij :: restl) = fpGo rooms acc restl := by
          simp [fpGo, ← List.get?_eq_getElem?, ha, hb]
        rw [hstep]
        obtain ⟨i1, i2, i3⟩ := ih acc hval
        refine ⟨i1, i2, ?_⟩
        intro ij' hij' a' b' ha' hb'
        rcases List.mem_cons.mp hij' with rfl | hij''
        · rw [hb] at hb'; exact absurd hb' (by simp)
        · exact i3 ij' hij'' a' b' ha' hb'
      · have hstep : fpGo rooms acc (ij :: restl) =
            fpGo rooms
              (if acc.1 < roomDistSq a b then (roomDistSq a b, a, b) else acc) restl := by
          simp [fpGo, ← List.get?_eq_getElem?, ha, hb]
        rw [hstep]
        by_cases hlt : acc.1 < roomDistSq a b
        · rw [if_pos hlt]
          have hval' : (roomDistSq a b, a, b).1 = 0 ∨
              (0 < (roomDistSq a b, a, b).1 ∧
                (roomDistSq a b, a, b).1 =
                  roomDistSq (roomDistSq a b, a, b).2.1 (roomDistSq a b, a, b).2.2) := by
            right
            refine ⟨?_, rfl⟩
            rcases hval with h0 | ⟨hpos, -⟩ <;> omega
          obtain ⟨i1, i2, i3⟩ := ih (roomDistSq a b, a, b) hval'
          refine ⟨by simp at i1 ⊢; omega, i2, ?_⟩
          intro ij' hij' a' b' ha' hb'
          rcases List.mem_cons.mp hij' with rfl | hij''
          · rw [ha] at ha'; rw [hb] at hb'
            have h1 : a' = a := by simpa using ha'.symm
            have h2 : b' = b := by simpa using hb'.symm
            subst h1; subst h2
            simp at i1
            omega
          · exact i3 ij' hij'' a' b' ha' hb'
        · rw [if_neg hlt]
          obtain ⟨i1, i2, i3⟩ := ih acc hval
          refine ⟨i1, i2, ?_⟩
          intro ij' hij' a' b' ha' hb'
          rcases List.mem_cons.mp hij' with rfl | hij''
          · rw [ha] at ha'; rw [hb] at hb'
            have h1 : a' = a := by simpa using ha'.symm
            have h2 : b' = b := by simpa using hb'.symm
            subst h1; subst h2
            omega
          · exact i3 ij' hij'' a' b' ha' hb'

theorem tlGo_spec (l : List Room) :
    ∀ acc : ℤ × Room, acc.1 = distTLSq acc.2 →
    (tlGo acc l).1 = distTLSq (tlGo acc l).2 ∧
    ((tlGo acc l).2 = acc.2 ∨ (tlGo acc l).2 ∈ l) ∧
    (tlGo acc l).1 ≤ acc.1 ∧
    (∀ q ∈ l, (tlGo acc l).1 ≤ distTLSq q) := by
  induction l with
  | nil => intro acc h; exact ⟨h, Or.inl rfl, le_refl _, by simp⟩
  | cons r restl ih =>
    intro acc h
    have hstep : tlGo acc (r :: restl) =
        tlGo (if distTLSq r < acc.1 then (distTLSq r, r) else acc) restl := rfl
    rw [hstep]
    by_cases hlt : distTLSq r < acc.1
    · rw [if_pos hlt]
      obtain ⟨i1, i2, i3, i4⟩ := ih (distTLSq r, r) rfl
      refine ⟨i1, ?_, by simp at i3; omega, ?_⟩
      · rcases i2 with h2 | h2
        · exact Or.inr (h2 ▸ List.mem_cons_self r restl)
        · exact Or.inr (List.mem_cons_of_mem r h2)
      · intro q hq
        rcases List.mem_cons.mp hq with rfl | hq'
        · simp at i3; omega
        · exact i4 q hq'
    · rw [if_neg hlt]
      obtain ⟨i1, i2, i3, i4⟩ := ih acc h
      refine ⟨i1, ?_, i3, ?_⟩
      · rcases i2 with h2 | h2
        · exact Or.inl h2
        · exact Or.inr (List.mem_cons_of_mem r h2)
      · intro q hq
        rcases List.mem_cons.mp hq with rfl | hq'
        · omega
        · exact i4 q hq'

theorem brGo_spec (gridW gridH : ℕ) (s : Room) (l : List Room) :
    ∀ acc : Option (ℤ × Room),
    (∀ d r, acc = some (d, r) → d = distBRSq gridW gridH r ∧ r ≠ s) →
    (∀ d r, brGo gridW gridH s acc l = some (d, r) →
      d = distBRSq gridW gridH r ∧ r ≠ s ∧ (acc = some (d, r) ∨ r ∈ l)) ∧
    (∀ q ∈ l, q ≠ s → ∀ d r, brGo gridW gridH s acc l = some (d, r) →
      d ≤ distBRSq gridW gridH q) ∧
    (∀ d0 r0, acc = some (d0, r0) → ∀ d r,
      brGo gridW gridH s acc l = some (d, r) → d ≤ d0) ∧
    ((∃ q ∈ l, q ≠ s) ∨ acc ≠ none → brGo gridW gridH s acc l ≠ none) := by
  induction l with
  | nil =>
    intro acc hacc
    refine ⟨fun d r h => ⟨(hacc d r h).1, (hacc d r h).2, Or.inl h⟩, by simp, ?_, ?_⟩
    · intro d0 r0 h0 d r h
      have : brGo gridW gridH s acc [] = acc := rfl
      rw [this] at h
      rw [h0] at h
      have h1 : d0 = d := by simpa using (congrArg (fun o => Option.map Prod.fst o) h)
      omega
    · rintro (⟨q, hq, -⟩ | hne)
      · exact absurd hq (List.not_mem_nil q)
      · exact hne
  | cons r0 restl ih =>
    intro acc hacc
    by_cases hr0 : r0 = s
    · have hstep : brGo gridW gridH s acc (r0 :: restl) = brGo gridW gridH s acc restl := by
        show (if r0 = s then _ else _) = _
        rw [if_pos hr0]
      rw [hstep]
      obtain ⟨j1, j2, j3, j4⟩ := ih acc hacc
      refine ⟨?_, ?_, j3, ?_⟩
      · intro d r h
        obtain ⟨x1, x2, x3⟩ := j1 d r h
        exact ⟨x1, x2, x3.imp id (List.mem_cons_of_mem r0)⟩
      · intro q hq hqs d r h
        rcases List.mem_cons.mp hq with rfl | hq'
        · exact absurd hr0 hqs
        · exact j2 q hq' hqs d r h
      · rintro (⟨q, hq, hqs⟩ | hne)
        · rcases List.mem_cons.mp hq with rfl | hq'
          · exact absurd hr0 hqs
          · exact j4 (Or.inl ⟨q, hq', hqs⟩)
        · exact j4 (Or.inr hne)
    · rcases acc with _ | a
      · have hstep : brGo gridW gridH s none (r0 :: restl) =
            brGo gridW gridH s (some (distBRSq gridW gridH r0, r0)) restl := by
          show (if r0 = s then _ else _) = _
          rw [if_neg hr0]
        rw [hstep]
        have hacc' : ∀ d r, (some (distBRSq gridW gridH r0, r0) : Option (ℤ × Room)) =
            some (d, r) → d = distBRSq gridW gridH r ∧ r ≠ s := by
          intro d r h
          have h1 : distBRSq gridW gridH r0 = d ∧ r0 = r := by
            simpa using h
          obtain ⟨h1, h2⟩ := h1
          subst h2
          exact ⟨h1.symm, hr0⟩
        obtain ⟨j1, j2, j3, j4⟩ := ih (some (distBRSq gridW gridH r0, r0)) hacc'
        refine ⟨?_, ?_, ?_, ?_⟩
        · intro d r h
          obtain ⟨x1, x2, x3⟩ := j1 d r h
          refine ⟨x1, x2, Or.inr ?_⟩
          rcases x3 with h3 | h3
          · have : r0 = r := by
              have h4 : distBRSq gridW gridH r0 = d ∧ r0 = r := by simpa using h3
              exact h4.2
            exact this ▸ List.mem_cons_self r0 restl
          · exact List.mem_cons_of_mem r0 h3
        · intro q hq hqs d r h
          rcases List.mem_cons.mp hq with rfl | hq'
          · exact j3 (distBRSq gridW gridH q) q rfl d r h
          · exact j2 q hq' hqs d r h
        · intro d0 rr h0
          exact absurd h0 (by simp)
        · intro _
          exact j4 (Or.inr (by simp))
      · have hstep : brGo gridW gridH s (some a) (r0 :: restl) =
            brGo gridW gridH s
              (if distBRSq gridW gridH r0 < a.1
                then some (distBRSq gridW gridH r0, r0) else some a) restl := by
          show (if r0 = s then _ else _) = _
          rw [if_neg hr0]
        rw [hstep]
        have haccs : a.1 = distBRSq gridW gridH a.2 ∧ a.2 ≠ s :=
          hacc a.1 a.2 rfl
        by_cases hlt : distBRSq gridW gridH r0 < a.1
        · rw [if_pos hlt]
          have hacc' : ∀ d r, (some (distBRSq gridW gridH r0, r0) : Option (ℤ × Room)) =
              some (d, r) → d = distBRSq gridW gridH r ∧ r ≠ s := by
            intro d r h
            have h1 : distBRSq gridW gridH r0 = d ∧ r0 = r := by simpa using h
            obtain ⟨h1, h2⟩ := h1
            subst h2
            exact ⟨h1.symm, hr0⟩
          obtain ⟨j1, j2, j3, j4⟩ := ih (some (distBRSq gridW gridH r0, r0)) hacc'
          refine ⟨?_, ?_, ?_, ?_⟩
          · intro d r h
            obtain ⟨x1, x2, x3⟩ := j1 d r h
            refine ⟨x1, x2, Or.inr ?_⟩
            rcases x3 with h3 | h3
            · have : r0 = r := by
                have h4 : distBRSq gridW gridH r0 = d ∧ r0 = r := by simpa using h3
                exact h4.2
              exact this ▸ List.mem_cons_self r0 restl
            · exact List.mem_cons_of_mem r0 h3
          · intro q hq hqs d r h
            rcases List.mem_cons.mp hq with rfl | hq'
            · exact j3 (distBRSq gridW gridH q) q rfl d r h
            · exact j2 q hq' hqs d r h
          · intro d0 rr h0 d r h
            have ha0 : a = (d0, rr) := by simpa using h0
            have := j3 (distBRSq gridW gridH r0) r0 rfl d r h
            rw [ha0] at hlt
            simp at hlt
            omega
          · intro _
            exact j4 (Or.inr (by simp))
        · rw [if_neg hlt]
          have hacc' : ∀ d r, (some a : Option (ℤ × Room)) = some (d, r) →
              d = distBRSq gridW gridH r ∧ r ≠ s := by
            intro d r h
            have ha0 : a = (d, r) := by simpa using h
            rw [ha0] at haccs
            exact haccs
          obtain ⟨j1, j2, j3, j4⟩ := ih (some a) hacc'
          refine ⟨?_, ?_, ?_, ?_⟩
          · intro d r h
            obtain ⟨x1, x2, x3⟩ := j1 d r h
            refine ⟨x1, x2, ?_⟩
            rcases x3 with h3 | h3
            · exact Or.inl h3
            · exact Or.inr (List.mem_cons_of_mem r0 h3)
          · intro q hq hqs d r h
            rcases List.mem_cons.mp hq with rfl | hq'
            · have := j3 a.1 a.2 (by simp) d r h
              omega
            · exact j2 q hq' hqs d r h
          · intro d0 rr h0 d r h
            have ha0 : a = (d0, rr) := by simpa using h0
            have := j3 a.1 a.2 (by simp) d r h
            rw [ha0] at this
            exact this
          · intro _
            exact j4 (Or.inr (by simp))

theorem fallbackStart_spec (r0 : Room) (rest : List Room) (dflt : Room) :
    fallbackStart (r0 :: rest) dflt ∈ r0 :: rest ∧
    (∀ q ∈ r0 :: rest, distTLSq (fallbackStart (r0 :: rest) dflt) ≤ distTLSq q) := by
  obtain ⟨i1, i2, i3, i4⟩ := tlGo_spec rest (distTLSq r0, r0) rfl
  have hfb : fallbackStart (r0 :: rest) dflt = (tlGo (distTLSq r0, r0) rest).2 := rfl
  rw [hfb]
  constructor
  · rcases i2 with h2 | h2
    · rw [h2]; exact List.mem_cons_self r0 rest
    · exact List.mem_cons_of_mem r0 h2
  · intro q hq
    rcases List.mem_cons.mp hq with rfl | hq'
    · rw [← i1]; simpa using i3
    · rw [← i1]; exact i4 q hq'

theorem fallbackExit_spec (gridW gridH : ℕ) (s : Room) (rooms : List Room)
    (dflt : Room) (hex : ∃ q ∈ rooms, q ≠ s) :
    fallbackExit gridW gridH s rooms dflt ∈ rooms ∧
    fallbackExit gridW gridH s rooms dflt ≠ s ∧
    (∀ q ∈ rooms, q ≠ s →
      distBRSq gridW gridH (fallbackExit gridW gridH s rooms dflt) ≤
        distBRSq gridW gridH q) := by
  obtain ⟨j1, j2, j3, j4⟩ := brGo_spec gridW gridH s rooms none (by simp)
  have hsome : brGo gridW gridH s none rooms ≠ none := j4 (Or.inl hex)
  rcases hbr : brGo gridW gridH s none rooms with _ | a
  · exact absurd hbr hsome
  · have hfe : fallbackExit gridW gridH s rooms dflt = a.2 := by
      unfold fallbackExit
      rw [hbr]
    obtain ⟨x1, x2, x3⟩ := j1 a.1 a.2 (by rw [hbr])
    rcases x3 with h3 | h3
    · exact absurd h3.symm (by simp)
    · refine ⟨hfe ▸ h3, hfe ▸ x2, ?_⟩
      intro q hq hqs
      rw [hfe, ← x1]
      exact j2 q hq hqs a.1 a.2 (by rw [hbr])

theorem findStartAndExit_mem (gridW gridH : ℕ) (rooms : List Room)
    (s e : Room) (fb : Bool)
    (h : findStartAndExit gridW gridH rooms = some (s, e, fb)) :
    s ∈ rooms ∧ e ∈ rooms := by
  rcases rooms with _ | ⟨r0, rest⟩
  · exact absurd h (by simp [findStartAndExit])
  · have hr0 : r0 ∈ r0 :: rest := List.mem_cons_self r0 rest
    have hrl : (r0 :: rest).getLastD r0 ∈ r0 :: rest := by
      rcases getLastD_mem (r0 :: rest) r0 with h' | h'
      · rw [h']; exact hr0
      · exact h'
    have hbest := fpGo_mem (r0 :: rest) (allPairs (r0 :: rest).length)
      (0, r0, (r0 :: rest).getLastD r0) hr0 hrl
    have huf : findStartAndExit gridW gridH (r0 :: rest) =
        (if 25 * (farthestPair (r0 :: rest) r0 ((r0 :: rest).getLastD r0)).1 <
              4 * ((gridW : ℤ) ^ 2 + (gridH : ℤ) ^ 2) ∧ 2 ≤ (r0 :: rest).length then
          some (fallbackStart (r0 :: rest)
              (farthestPair (r0 :: rest) r0 ((r0 :: rest).getLastD r0)).2.1,
            fallbackExit gridW gridH
              (fallbackStart (r0 :: rest)
                (farthestPair (r0 :: rest) r0 ((r0 :: rest).getLastD r0)).2.1)
              (r0 :: rest)
              (farthestPair (r0 :: rest) r0 ((r0 :: rest).getLastD r0)).2.2,
            true)
        else
          some ((farthestPair (r0 :: rest) r0 ((r0 :: rest).getLastD r0)).2.1,
            (farthestPair (r0 :: rest) r0 ((r0 :: rest).getLastD r0)).2.2,
            false)) := rfl
    rw [huf] at h
    split at h
    · have hse : s = fallbackStart (r0 :: rest)
          (farthestPair (r0 :: rest) r0 ((r0 :: rest).getLastD r0)).2.1 ∧
          e = fallbackExit gridW gridH
            (fallbackStart (r0 :: rest)
              (farthestPair (r0 :: rest) r0 ((r0 :: rest).getLastD r0)).2.1)
            (r0 :: rest)
            (farthestPair (r0 :: rest) r0 ((r0 :: rest).getLastD r0)).2.2 := by
        have := Option.some.inj h
        exact ⟨congrArg (fun t => t.1) this.symm, congrArg (fun t => t.2.1) this.symm⟩
      obtain ⟨hs, he⟩ := hse
      constructor
      · rw [hs]
        exact (fallbackStart_spec r0 rest _).1
      · rw [he]
        unfold fallbackExit
        rcases hbr : brGo gridW gridH
            (fallbackStart (r0 :: rest)
              (farthestPair (r0 :: rest) r0 ((r0 :: rest).getLastD r0)).2.1)
            none (r0 :: rest) with _ | a
        · exact hbest.2
        · obtain ⟨j1, j2, j3, j4⟩ := brGo_spec gridW gridH
            (fallbackStart (r0 :: rest)
              (farthestPair (r0 :: rest) r0 ((r0 :: rest).getLastD r0)).2.1)
            (r0 :: rest) none (by simp)
          obtain ⟨x1, x2, x3⟩ := j1 a.1 a.2 (by rw [hbr])
          rcases x3 with h3 | h3
          · exact absurd h3.symm (by simp)
          · exact h3
    · have hse : s = (farthestPair (r0 :: rest) r0 ((r0 :: rest).getLastD r0)).2.1 ∧
          e = (farthestPair (r0 :: rest) r0 ((r0 :: rest).getLastD r0)).2.2 := by
        have := Option.some.inj h
        exact ⟨congrArg (fun t => t.1) this.symm, congrArg (fun t => t.2.1) this.symm⟩
      exact ⟨hse.1 ▸ hbest.1, hse.2 ▸ hbest.2⟩

/-- Unfolds `generate`: the room list is fixed by the placement phase;
the final grid is the extra-corridor phase applied to the connect phase. -/
theorem generate_eq (gridW gridH : ℕ) (cands : List Cand) (dirs : ℕ → Bool)
    (picks : ℕ → ℕ × ℕ) (extraDirs : ℕ → Bool) :
    generate gridW gridH cands dirs picks extraDirs =
      match findStartAndExit gridW gridH (placeRooms cands).rooms with
      | some (s, e, _) =>
        some ⟨extraGo gridW gridH (placeRooms cands).rooms picks extraDirs
            (connectGo gridW gridH dirs (placeRooms cands).tiles
              (placeRooms cands).rooms 0)
            0 ((placeRooms cands).rooms.length / 2),
          (placeRooms cands).rooms, s, e, gridW, gridH⟩
      | none => none := rfl

/-- C1: every maze returned by `generate` (any draw streams whose accepted
rooms are in bounds) has every FLOOR tile reachable from the start room's
center by a path of 4-connected FLOOR tiles. -/
theorem maze_generate_connected (gridW gridH : ℕ) (cands : List Cand)
    (dirs extraDirs : ℕ → Bool) (picks : ℕ → ℕ × ℕ)
    (hc : ∀ c ∈ cands, CandOK gridW gridH c) (m : MazeData)
    (hm : generate gridW gridH cands dirs picks extraDirs = some m) :
    ∀ p : ℕ × ℕ, isFloor m.tiles p →
      Reach m.tiles (m.startRoom.centerX, m.startRoom.centerY) p := by
  obtain ⟨hwf, hrect, hcov, hpw⟩ := placeRooms_inv gridW gridH cands hc
  rw [generate_eq] at hm
  rcases hrooms : (placeRooms cands).rooms with _ | ⟨a, rest⟩
  · rw [hrooms] at hm
    exact absurd hm (by simp [findStartAndExit])
  · rw [hrooms] at hm hwf hrect hcov hpw
    rcases hfind : findStartAndExit gridW gridH (a :: rest) with _ | ⟨s, e, fb⟩
    · rw [hfind] at hm
      exact absurd hm (by simp)
    · rw [hfind] at hm
      obtain ⟨hs, -⟩ := findStartAndExit_mem gridW gridH (a :: rest) s e fb hfind
      obtain ⟨cmono, cdec, ccent⟩ :=
        connectGo_spec gridW gridH dirs rest a (placeRooms cands).tiles 0 hwf hrect
      have hconn2 : ConnectedInv gridW gridH (a :: rest) (a.centerX, a.centerY)
          (connectGo gridW gridH dirs (placeRooms cands).tiles (a :: rest) 0) := by
        refine ⟨fun r hr p hp => cmono p (hrect r hr p hp), ccent, ?_⟩
        intro p hp
        rcases cdec p hp with h1 | h2
        · obtain ⟨r, hr, hrp⟩ := hcov p h1
          obtain ⟨hp1, hp2, hp3, hp4⟩ := hrp
          obtain ⟨-, -, hw1, hh1, -, -, -, -⟩ := hwf r hr
          have hfl : ∀ q : ℕ × ℕ, r.x ≤ q.1 → q.1 ≤ r.x + r.width - 1 →
              r.y ≤ q.2 → q.2 ≤ r.y + r.height - 1 →
              isFloor (connectGo gridW gridH dirs (placeRooms cands).tiles
                (a :: rest) 0) q := by
            intro q q1 q2 q3 q4
            exact cmono q (hrect r hr q ⟨q1, by omega, q3, by omega⟩)
          obtain ⟨hc1, hc2, hc3, hc4, hc5, hc6⟩ :=
            roomWF_center_bounds gridW gridH r (hwf r hr)
          refine (reach_rect _ r.x (r.x + r.width - 1) r.y (r.y + r.height - 1)
            hfl p (r.centerX, r.centerY)
            ⟨hp1, by omega, hp3, by omega⟩
            ⟨by simp <;> omega, by simp <;> omega, by simp <;> omega,
              by simp <;> omega⟩).trans (ccent r hr)
        · exact h2
      have hconn3 := extraGo_inv gridW gridH (a :: rest) picks extraDirs
        (a.centerX, a.centerY) hwf ((a :: rest).length / 2) 0 _ hconn2
      have hmz : m = ⟨extraGo gridW gridH (a :: rest) picks extraDirs
          (connectGo gridW gridH dirs (placeRooms cands).tiles (a :: rest) 0)
          0 ((a :: rest).length / 2), a :: rest, s, e, gridW, gridH⟩ :=
        (Option.some.inj hm).symm
      rw [hmz]
      intro p hp
      obtain ⟨-, hcent3, hall3⟩ := hconn3
      exact Relation.ReflTransGen.trans (hcent3 s hs)
        (reach_symm _ (hall3 p hp))

/-- C1 witness: the in-bounds hypothesis holds for the concrete draws and
the connectivity conclusion follows for the generated maze. -/
theorem maze_generate_connected_witness :
    (∀ c ∈ candsC1, CandOK 25 25 c) ∧
    (∀ p : ℕ × ℕ, isFloor mazeC1.tiles p →
      Reach mazeC1.tiles (mazeC1.startRoom.centerX, mazeC1.startRoom.centerY) p) :=
  ⟨by decide, maze_generate_connected 25 25 candsC1 (fun _ => true) (fun _ => true)
    (fun _ => (0, 0)) (by decide) mazeC1 rfl⟩

theorem mem_allPairs (n : ℕ) (ij : ℕ × ℕ) :
    ij ∈ allPairs n ↔ ij.1 < ij.2 ∧ ij.2 < n := by
  rcases ij with ⟨i, j⟩
  simp only [allPairs, List.mem_flatMap, List.mem_filterMap, List.mem_range]
  constructor
  · rintro ⟨i', hi', j', hj', heq⟩
    split at heq
    · have h1 := Option.some.inj heq
      have h2a : i' = i := by simpa using congrArg (fun t : ℕ × ℕ => t.1) h1
      have h2b : j' = j := by simpa using congrArg (fun t : ℕ × ℕ => t.2) h1
      subst h2a
      subst h2b
      omega
    · exact absurd heq (by simp)
  · rintro ⟨h1, h2⟩
    exact ⟨i, by omega, j, h2, by rw [if_pos h1]⟩

theorem roomsOverlap_self (r : Room) (p : ℕ) : roomsOverlap r r p = true := by
  simp [roomsOverlap]
  omega

theorem roomDistSq_self (r : Room) : roomDistSq r r = 0 := by
  simp [roomDistSq]

theorem sq_add_sq_pos_of_ne (u v : ℤ) (h : u ≠ 0) : 0 < u ^ 2 + v ^ 2 := by
  have h1 : 0 < u ^ 2 := by
    rcases lt_or_gt_of_ne h with hlt | hgt
    · nlinarith
    · nlinarith
  nlinarith [sq_nonneg v]

/-- Two accepted (non-overlapping, well-formed) rooms have distinct centers,
so their squared center distance is positive. -/
theorem roomDistSq_pos (gridW gridH : ℕ) (a b : Room)
    (hwa : RoomWF gridW gridH a) (hwb : RoomWF gridW gridH b)
    (hno : roomsOverlap b a 2 = false) : 0 < roomDistSq a b := by
  obtain ⟨ha1, ha2, ha3, ha4, ha5, ha6⟩ := roomWF_center_bounds gridW gridH a hwa
  obtain ⟨hb1, hb2, hb3, hb4, hb5, hb6⟩ := roomWF_center_bounds gridW gridH b hwb
  have hor : b.x + b.width + 2 < a.x ∨ a.x + a.width + 2 < b.x ∨
      b.y + b.height + 2 < a.y ∨ a.y + a.height + 2 < b.y := by
    rcases hb4 : (decide (b.x + b.width + 2 < a.x) ||
        decide (a.x + a.width + 2 < b.x) ||
        decide (b.y + b.height + 2 < a.y) ||
        decide (a.y + a.height + 2 < b.y)) with _ | _
    · exfalso
      have hov : roomsOverlap b a 2 = true := by
        unfold roomsOverlap
        rw [hb4]
        rfl
      rw [hov] at hno
      exact absurd hno (by simp)
    · have hb4' := hb4
      simp only [Bool.or_eq_true, decide_eq_true_eq] at hb4'
      tauto
  unfold roomDistSq
  rcases hor with h | h | h | h
  · exact sq_add_sq_pos_of_ne _ _ (by omega)
  · exact sq_add_sq_pos_of_ne _ _ (by omega)
  · rw [add_comm]
    exact sq_add_sq_pos_of_ne _ _ (by omega)
  · rw [add_comm]
    exact sq_add_sq_pos_of_ne _ _ (by omega)

theorem findStartAndExit_spec (gridW gridH : ℕ) (r0 r1 : Room) (rest' : List Room)
    (s e : Room) (fb : Bool)
    (hwf : ∀ r ∈ r0 :: r1 :: rest', RoomWF gridW gridH r)
    (hpw : (r0 :: r1 :: rest').Pairwise fun u v => roomsOverlap v u 2 = false)
    (h : findStartAndExit gridW gridH (r0 :: r1 :: rest') = some (s, e, fb)) :
    s ≠ e ∧
    (fb = false → 4 * ((gridW : ℤ) ^ 2 + (gridH : ℤ) ^ 2) ≤ 25 * roomDistSq s e) ∧
    (fb = true → (∀ q ∈ r0 :: r1 :: rest', distTLSq s ≤ distTLSq q) ∧
      (∀ q ∈ r0 :: r1 :: rest', q ≠ s →
        distBRSq gridW gridH e ≤ distBRSq gridW gridH q)) := by
  have hm0 : r0 ∈ r0 :: r1 :: rest' := List.mem_cons_self _ _
  have hm1 : r1 ∈ r0 :: r1 :: rest' :=
    List.mem_cons_of_mem r0 (List.mem_cons_self _ _)
  have hpair01 : roomsOverlap r1 r0 2 = false :=
    (List.pairwise_cons.mp hpw).1 r1 (List.mem_cons_self _ _)
  have hne01 : r0 ≠ r1 := by
    intro heq
    rw [heq] at hpair01
    rw [roomsOverlap_self] at hpair01
    exact absurd hpair01 (by simp)
  have hd01 : 0 < roomDistSq r0 r1 :=
    roomDistSq_pos gridW gridH r0 r1 (hwf r0 hm0) (hwf r1 hm1) hpair01
  obtain ⟨f1, f2, f3⟩ := fpGo_spec (r0 :: r1 :: rest')
    (allPairs (r0 :: r1 :: rest').length)
    (0, r0, (r0 :: r1 :: rest').getLastD r0) (Or.inl rfl)
  have hfpe : farthestPair (r0 :: r1 :: rest') r0 ((r0 :: r1 :: rest').getLastD r0) =
      fpGo (r0 :: r1 :: rest') (0, r0, (r0 :: r1 :: rest').getLastD r0)
        (allPairs (r0 :: r1 :: rest').length) := rfl
  rw [← hfpe] at f1 f2 f3
  have hp01 : ((0, 1) : ℕ × ℕ) ∈ allPairs (r0 :: r1 :: rest').length :=
    (mem_allPairs _ _).mpr ⟨by omega, by simp⟩
  have hcover : roomDistSq r0 r1 ≤
      (farthestPair (r0 :: r1 :: rest') r0 ((r0 :: r1 :: rest').getLastD r0)).1 :=
    f3 (0, 1) hp01 r0 r1 rfl rfl
  have hbestpos : 0 <
      (farthestPair (r0 :: r1 :: rest') r0 ((r0 :: r1 :: rest').getLastD r0)).1 :=
    lt_of_lt_of_le hd01 hcover
  have hbestval : (farthestPair (r0 :: r1 :: rest') r0
        ((r0 :: r1 :: rest').getLastD r0)).1 =
      roomDistSq
        (farthestPair (r0 :: r1 :: rest') r0 ((r0 :: r1 :: rest').getLastD r0)).2.1
        (farthestPair (r0 :: r1 :: rest') r0 ((r0 :: r1 :: rest').getLastD r0)).2.2 := by
    rcases f2 with h0 | ⟨-, hval⟩
    · omega
    · exact hval
  have huf : findStartAndExit gridW gridH (r0 :: r1 :: rest') =
      (if 25 * (farthestPair (r0 :: r1 :: rest') r0
            ((r0 :: r1 :: rest').getLastD r0)).1 <
            4 * ((gridW : ℤ) ^ 2 + (gridH : ℤ) ^ 2) ∧
            2 ≤ (r0 :: r1 :: rest').length then
        some (fallbackStart (r0 :: r1 :: rest')
            (farthestPair (r0 :: r1 :: rest') r0
              ((r0 :: r1 :: rest').getLastD r0)).2.1,
          fallbackExit gridW gridH
            (fallbackStart (r0 :: r1 :: rest')
              (farthestPair (r0 :: r1 :: rest') r0
                ((r0 :: r1 :: rest').getLastD r0)).2.1)
            (r0 :: r1 :: rest')
            (farthestPair (r0 :: r1 :: rest') r0
              ((r0 :: r1 :: rest').getLastD r0)).2.2,
          true)
      else
        some ((farthestPair (r0 :: r1 :: rest') r0
            ((r0 :: r1 :: rest').getLastD r0)).2.1,
          (farthestPair (r0 :: r1 :: rest') r0
            ((r0 :: r1 :: rest').getLastD r0)).2.2,
          false)) := rfl
  rw [huf] at h
  split at h
  · obtain ⟨hs, he, hfb⟩ : s = fallbackStart (r0 :: r1 :: rest')
        (farthestPair (r0 :: r1 :: rest') r0
          ((r0 :: r1 :: rest').getLastD r0)).2.1 ∧
        e = fallbackExit gridW gridH
          (fallbackStart (r0 :: r1 :: rest')
            (farthestPair (r0 :: r1 :: rest') r0
              ((r0 :: r1 :: rest').getLastD r0)).2.1)
          (r0 :: r1 :: rest')
          (farthestPair (r0 :: r1 :: rest') r0
            ((r0 :: r1 :: rest').getLastD r0)).2.2 ∧
        fb = true := by
      have h' := Option.some.inj h
      exact ⟨congrArg (fun t => t.1) h'.symm,
        congrArg (fun t => t.2.1) h'.symm,
        congrArg (fun t => t.2.2) h'.symm⟩
    have hex : ∃ q ∈ r0 :: r1 :: rest', q ≠ s := by
      by_cases hs0 : s = r0
      · refine ⟨r1, hm1, fun hcon => ?_⟩
        exact hne01 (hcon.trans hs0).symm
      · exact ⟨r0, hm0, fun hcon => hs0 hcon.symm⟩
    rw [hs] at hex
    obtain ⟨hemem, henes, hemin⟩ := fallbackExit_spec gridW gridH
      (fallbackStart (r0 :: r1 :: rest')
        (farthestPair (r0 :: r1 :: rest') r0
          ((r0 :: r1 :: rest').getLastD r0)).2.1)
      (r0 :: r1 :: rest')
      (farthestPair (r0 :: r1 :: rest') r0
        ((r0 :: r1 :: rest').getLastD r0)).2.2
      hex
    refine ⟨?_, ?_, ?_⟩
    · rw [hs, he]
      exact fun hcon => henes hcon.symm
    · intro hff
      rw [hfb] at hff
      exact absurd hff (by simp)
    · intro _
      constructor
      · intro q hq
        rw [hs]
        exact (fallbackStart_spec r0 (r1 :: rest') _).2 q hq
      · intro q hq hqs
        rw [he]
        apply hemin q hq
        rw [← hs]
        exact hqs
  · obtain ⟨hs, he, hfb⟩ : s = (farthestPair (r0 :: r1 :: rest') r0
          ((r0 :: r1 :: rest').getLastD r0)).2.1 ∧
        e = (farthestPair (r0 :: r1 :: rest') r0
          ((r0 :: r1 :: rest').getLastD r0)).2.2 ∧
        fb = false := by
      have h' := Option.some.inj h
      exact ⟨congrArg (fun t => t.1) h'.symm,
        congrArg (fun t => t.2.1) h'.symm,
        congrArg (fun t => t.2.2) h'.symm⟩
    have hval : roomDistSq s e =
        (farthestPair (r0 :: r1 :: rest') r0
          ((r0 :: r1 :: rest').getLastD r0)).1 := by
      rw [hs, he, ← hbestval]
    have hnofb : ¬(25 * (farthestPair (r0 :: r1 :: rest') r0
          ((r0 :: r1 :: rest').getLastD r0)).1 <
          4 * ((gridW : ℤ) ^ 2 + (gridH : ℤ) ^ 2) ∧
          2 ≤ (r0 :: r1 :: rest').length) := by assumption
    have hsep : 4 * ((gridW : ℤ) ^ 2 + (gridH : ℤ) ^ 2) ≤
        25 * (farthestPair (r0 :: r1 :: rest') r0
          ((r0 :: r1 :: rest').getLastD r0)).1 := by
      by_contra hcon
      exact hnofb ⟨by omega, by simp⟩
    refine ⟨?_, ?_, ?_⟩
    · intro hcon
      rw [hcon] at hval
      rw [roomDistSq_self] at hval
      omega
    · intro _
      rw [hval]
      exact hsep
    · intro htt
      rw [hfb] at htt
      exact absurd htt (by simp)

/-- C5 amended: every generated maze that placed at least two rooms has
either `distance(start, exit) ≥ 0.4 · sqrt(W² + H²)` (as
`25·distSq ≥ 4·(W² + H²)`) or the corner-bias fallback applied (start
minimises the distance to the top-left corner; exit minimises the distance
to the bottom-right corner among the other rooms); and the start and exit
rooms are distinct. -/
theorem start_exit_separation (gridW gridH : ℕ) (cands : List Cand)
    (dirs extraDirs : ℕ → Bool) (picks : ℕ → ℕ × ℕ)
    (hc : ∀ c ∈ cands, CandOK gridW gridH c) (m : MazeData)
    (hm : generate gridW gridH cands dirs picks extraDirs = some m)
    (h2 : 2 ≤ m.rooms.length) :
    m.startRoom ≠ m.exitRoom ∧
    (4 * ((gridW : ℤ) ^ 2 + (gridH : ℤ) ^ 2) ≤
        25 * roomDistSq m.startRoom m.exitRoom ∨
      ((∀ q ∈ m.rooms, distTLSq m.startRoom ≤ distTLSq q) ∧
        (∀ q ∈ m.rooms, q ≠ m.startRoom →
          distBRSq gridW gridH m.exitRoom ≤ distBRSq gridW gridH q))) := by
  obtain ⟨hwf, -, -, hpw⟩ := placeRooms_inv gridW gridH cands hc
  rw [generate_eq] at hm
  rcases hrooms : (placeRooms cands).rooms with _ | ⟨a, rest⟩
  · rw [hrooms] at hm
    exact absurd hm (by simp [findStartAndExit])
  · rw [hrooms] at hm hwf hpw
    rcases hfind : findStartAndExit gridW gridH (a :: rest) with _ | ⟨s, e, fb⟩
    · rw [hfind] at hm
      exact absurd hm (by simp)
    · rw [hfind] at hm
      have hmz : m = ⟨extraGo gridW gridH (a :: rest) picks extraDirs
          (connectGo gridW gridH dirs (placeRooms cands).tiles (a :: rest) 0)
          0 ((a :: rest).length / 2), a :: rest, s, e, gridW, gridH⟩ :=
        (Option.some.inj hm).symm
      rcases rest with _ | ⟨b, rest'⟩
      · rw [hmz] at h2
        exact absurd h2 (by simp)
      · obtain ⟨x1, x2, x3⟩ := findStartAndExit_spec gridW gridH a b rest' s e fb
          hwf hpw hfind
        rw [hmz]
        rcases fb with _ | _
        · exact ⟨x1, Or.inl (x2 rfl)⟩
        · exact ⟨x1, Or.inr (x3 rfl)⟩

/-- C5 counterexample: a generated maze with one placed room has
`startRoom = exitRoom` at distance 0 — below the 40%-diagonal floor — and
the corner-bias fallback did not run (the flag returned by
`findStartAndExit` is `false`), so the claim's unguarded disjunction fails
on this maze. -/
theorem start_exit_separation_counterexample :
    genC5 = some mazeC5 ∧
    (∀ c ∈ candsC5, CandOK 25 25 c) ∧
    25 * roomDistSq mazeC5.startRoom mazeC5.exitRoom <
      4 * ((25 : ℤ) ^ 2 + (25 : ℤ) ^ 2) ∧
    findStartAndExit 25 25 mazeC5.rooms =
      some (mazeC5.startRoom, mazeC5.exitRoom, false) := by
  exact ⟨rfl, by decide, by decide, by decide⟩

/-- C5 witness: on a concrete two-room maze the hypotheses hold and the
start and exit rooms are distinct. -/
theorem start_exit_separation_witness :
    ((∀ c ∈ candsC5w, CandOK 25 25 c) ∧ genC5w = some mazeC5w ∧
      2 ≤ mazeC5w.rooms.length) ∧
    mazeC5w.startRoom ≠ mazeC5w.exitRoom :=
  ⟨⟨by decide, rfl, by decide⟩,
    (start_exit_separation 25 25 candsC5w (fun _ => true) (fun _ => true)
      (fun _ => (0, 0)) (by decide) mazeC5w rfl (by decide)).1⟩

end LastLight
